import Mathlib

/-!
# Verification of the ForCard turn-resolution and effect-computation engine

Shallow embedding of the ForCard engine (`Cell`, `Board`, the card model,
`GameManager`, `Scoring`) and proofs about the spec claims.  Cells hold a
clipped signed stability value; the board is a `size × size` grid; cards act
on the board through the clipped cell mutators; the `GameManager` resolves a
round through the double-action / skip / simultaneous-color / fort / special /
time-bomb / end-turn pipeline.
-/

namespace ForCard

/-- Player identifier, `'A' | 'B'` in the source. -/
inductive PlayerId where
  | A
  | B
deriving DecidableEq, Repr

/-- `playerId === 'A' ? 'B' : 'A'`. -/
def PlayerId.opponent : PlayerId → PlayerId
  | .A => .B
  | .B => .A

/-- A grid coordinate (`Position` in `types.ts`).  Coordinates are `Int`
because effect patterns form out-of-range neighbor coordinates that the board
then rejects. -/
structure Pos where
  x : Int
  y : Int
deriving DecidableEq, Repr

/-- Card identifier: the source type is the template-literal union
`C${number} | F${number} | S${number}`. -/
inductive CardId where
  | C (n : Nat)
  | F (n : Nat)
  | S (n : Nat)
deriving DecidableEq, Repr

/-- `Cell.setStability` clamping: `Math.max(-5, Math.min(5, value))`. -/
def clip (v : Int) : Int := max (-5) (min 5 v)

/-- The board: a `size × size` grid of stability values (each entry is the
`_stability` of one `Cell`). -/
structure Board where
  size : Nat
  cells : List (List Int)
deriving DecidableEq, Repr

namespace Board

/-- `Board.isValidPosition`. -/
def isValidPosition (b : Board) (x y : Int) : Bool :=
  decide (0 ≤ x) && decide (x < (b.size : Int)) && decide (0 ≤ y) && decide (y < (b.size : Int))

/-- `Board.getCell`: `null` out of range, otherwise the cell (its stability). -/
def getCell (b : Board) (x y : Int) : Option Int :=
  if b.isValidPosition x y then ((b.cells[y.toNat]?).getD [])[x.toNat]? else none

/-- Raw write of one cell (the mutation performed through a `Cell` reference
obtained from `getCell`). -/
def writeCell (b : Board) (x y v : Int) : Board :=
  if b.isValidPosition x y then
    { b with cells := b.cells.set y.toNat (((b.cells[y.toNat]?).getD []).set x.toNat v) }
  else b

/-- `cell.setStability(v)` on the cell at `(x,y)` when it exists
(`const cell = board.getCell(x,y); if (cell) cell.setStability(v)`). -/
def setStabilityAt (b : Board) (x y v : Int) : Board :=
  match b.getCell x y with
  | some _ => b.writeCell x y (clip v)
  | none => b

/-- `cell.addStability(d)` on the cell at `(x,y)` when it exists. -/
def addStabilityAt (b : Board) (x y d : Int) : Board :=
  match b.getCell x y with
  | some s => b.writeCell x y (clip (s + d))
  | none => b

/-- `cell.reset()` on the cell at `(x,y)` when it exists. -/
def resetAt (b : Board) (x y : Int) : Board :=
  match b.getCell x y with
  | some _ => b.writeCell x y 0
  | none => b

/-- The board produced by the `Board` constructor: all stabilities zero. -/
def make (size : Nat) : Board :=
  ⟨size, List.replicate size (List.replicate size 0)⟩

/-- Shape well-formedness: the grid really is `size` rows of `size` cells
(guaranteed by the source constructor). -/
def WF (b : Board) : Prop :=
  b.cells.length = b.size ∧ ∀ r ∈ b.cells, r.length = b.size

instance (b : Board) : Decidable b.WF := by
  unfold WF; infer_instance

end Board

/-- `Cell.owner`: `'A'` if positive, `'B'` if negative, `null` at zero. -/
def cellOwner (s : Int) : Option PlayerId :=
  if 0 < s then some .A else if s < 0 then some .B else none

/-- `Cell.isOwnedBy`. -/
def isOwnedBy (s : Int) (pid : PlayerId) : Bool :=
  cellOwner s = some pid

/-- `Cell.isOwnedByEnemy`. -/
def isOwnedByEnemy (s : Int) (pid : PlayerId) : Bool :=
  (cellOwner s).isSome && cellOwner s ≠ some pid

/-- `Cell.isNeutral`. -/
def isNeutral (s : Int) : Bool :=
  cellOwner s = none

theorem clip_mem (v : Int) : -5 ≤ clip v ∧ clip v ≤ 5 := by
  unfold clip
  constructor
  · exact le_max_left _ _
  · exact max_le (by norm_num) (min_le_left _ _)

theorem clip_of_mem {v : Int} (h₁ : -5 ≤ v) (h₂ : v ≤ 5) : clip v = v := by
  unfold clip; omega

namespace Board

theorem size_writeCell (b : Board) (x y v : Int) : (b.writeCell x y v).size = b.size := by
  unfold writeCell; split <;> rfl

theorem isValidPosition_writeCell (b : Board) (x y v x' y' : Int) :
    (b.writeCell x y v).isValidPosition x' y' = b.isValidPosition x' y' := by
  unfold writeCell isValidPosition; split <;> rfl

theorem isValidPosition_of_getCell {b : Board} {x y : Int} {s : Int}
    (h : b.getCell x y = some s) : b.isValidPosition x y = true := by
  unfold getCell at h
  by_cases hv : b.isValidPosition x y = true
  · exact hv
  · simp [hv] at h

theorem getCell_nonneg {b : Board} {x y : Int} {s : Int}
    (h : b.getCell x y = some s) : 0 ≤ x ∧ 0 ≤ y := by
  have hv := isValidPosition_of_getCell h
  unfold isValidPosition at hv
  simp only [Bool.and_eq_true, decide_eq_true_eq] at hv
  exact ⟨hv.1.1.1, hv.1.2⟩

theorem getCell_writeCell_self {b : Board} {x y : Int} {s : Int} (v : Int)
    (h : b.getCell x y = some s) : (b.writeCell x y v).getCell x y = some v := by
  have hv := isValidPosition_of_getCell h
  have hv2 : (b.writeCell x y v).isValidPosition x y = true := by
    rw [isValidPosition_writeCell]; exact hv
  unfold getCell at h ⊢
  rw [hv] at h
  simp only [if_pos] at h
  rw [hv2]
  simp only [if_pos]
  unfold writeCell
  rw [hv]
  simp only [if_pos]
  by_cases hy : y.toNat < b.cells.length
  · have hx : x.toNat < (b.cells[y.toNat]?.getD []).length := by
      by_contra hcon
      push_neg at hcon
      rw [List.getElem?_eq_none hcon] at h
      exact Option.noConfusion h
    rw [show (b.cells.set y.toNat ((b.cells[y.toNat]?.getD []).set x.toNat v))[y.toNat]? =
        some ((b.cells[y.toNat]?.getD []).set x.toNat v) by rw [List.getElem?_set]; simp [hy]]
    simp only [Option.getD_some]
    rw [List.getElem?_set]
    simp [hx]
  · exfalso
    rw [List.getElem?_eq_none (n := y.toNat) (l := b.cells) (by omega)] at h
    simp at h

theorem getCell_writeCell_other {b : Board} (x y v x' y' : Int)
    (hne : x ≠ x' ∨ y ≠ y') : (b.writeCell x y v).getCell x' y' = b.getCell x' y' := by
  by_cases hv : b.isValidPosition x y = true
  · have hv2 : (b.writeCell x y v).isValidPosition x' y' = b.isValidPosition x' y' :=
      isValidPosition_writeCell ..
    unfold getCell
    rw [hv2]
    by_cases hv' : b.isValidPosition x' y' = true
    · rw [hv']
      simp only [if_pos]
      unfold writeCell
      rw [hv]
      simp only [if_pos]
      have hx0 : 0 ≤ x ∧ 0 ≤ y := by
        unfold isValidPosition at hv
        simp only [Bool.and_eq_true, decide_eq_true_eq] at hv
        exact ⟨hv.1.1.1, hv.1.2⟩
      have hx0' : 0 ≤ x' ∧ 0 ≤ y' := by
        unfold isValidPosition at hv'
        simp only [Bool.and_eq_true, decide_eq_true_eq] at hv'
        exact ⟨hv'.1.1.1, hv'.1.2⟩
      by_cases hyy : y.toNat = y'.toNat
      · have hy_eq : y = y' := by omega
        have hxx : x.toNat ≠ x'.toNat := by
          rcases hne with h | h
          · omega
          · exact absurd hy_eq h
        rw [← hyy, List.getElem?_set]
        by_cases hy : y.toNat < b.cells.length
        · simp only [if_pos rfl, if_pos hy, ite_true, Option.getD_some]
          rw [List.getElem?_set_ne hxx]
        · simp only [if_pos rfl, if_neg hy, ite_true]
          rw [List.getElem?_eq_none (n := y.toNat) (l := b.cells) (by omega)]
      · rw [List.getElem?_set_ne hyy]
    · simp only [Bool.not_eq_true] at hv'
      rw [hv']
      rfl
  · unfold writeCell
    rw [if_neg (by simp [hv])]

/-- All stabilities on the board are inside `[-5, 5]`. -/
def Inv (b : Board) : Prop :=
  ∀ r ∈ b.cells, ∀ v ∈ r, -5 ≤ v ∧ v ≤ 5

instance (b : Board) : Decidable b.Inv := by
  unfold Inv; infer_instance

theorem Inv.writeCell {b : Board} (hb : b.Inv) {v : Int} (hv : -5 ≤ v ∧ v ≤ 5)
    (x y : Int) : (b.writeCell x y v).Inv := by
  unfold Board.writeCell
  split
  · intro r hr w hw
    rcases List.mem_or_eq_of_mem_set hr with hr | hr
    · exact hb r hr w hw
    · subst hr
      rcases List.mem_or_eq_of_mem_set hw with hw | hw
      · by_cases hy : y.toNat < b.cells.length
        · refine hb _ ?_ w hw
          rw [List.getElem?_eq_getElem hy]
          exact List.getElem_mem hy
        · rw [List.getElem?_eq_none (n := y.toNat) (l := b.cells) (by omega)] at hw
          simp at hw
      · subst hw; exact hv
  · exact hb

theorem Inv.setStabilityAt {b : Board} (hb : b.Inv) (x y v : Int) :
    (b.setStabilityAt x y v).Inv := by
  unfold Board.setStabilityAt
  split
  · exact hb.writeCell (clip_mem v) x y
  · exact hb

theorem Inv.addStabilityAt {b : Board} (hb : b.Inv) (x y d : Int) :
    (b.addStabilityAt x y d).Inv := by
  unfold Board.addStabilityAt
  split
  · exact hb.writeCell (clip_mem _) x y
  · exact hb

theorem Inv.resetAt {b : Board} (hb : b.Inv) (x y : Int) :
    (b.resetAt x y).Inv := by
  unfold Board.resetAt
  split
  · exact hb.writeCell (by norm_num) x y
  · exact hb

theorem getCell_addStabilityAt_self (b : Board) (x y d : Int) :
    (b.addStabilityAt x y d).getCell x y = (b.getCell x y).map (fun s => clip (s + d)) := by
  unfold addStabilityAt
  cases h : b.getCell x y with
  | none => simp [h]
  | some s => simp [getCell_writeCell_self _ h]

theorem getCell_addStabilityAt_other (b : Board) (x y d x' y' : Int)
    (hne : x ≠ x' ∨ y ≠ y') :
    (b.addStabilityAt x y d).getCell x' y' = b.getCell x' y' := by
  unfold addStabilityAt
  cases h : b.getCell x y with
  | none => rfl
  | some s => exact getCell_writeCell_other x y _ x' y' hne

theorem getCell_setStabilityAt_self (b : Board) (x y v : Int) :
    (b.setStabilityAt x y v).getCell x y = (b.getCell x y).map (fun _ => clip v) := by
  unfold setStabilityAt
  cases h : b.getCell x y with
  | none => simp [h]
  | some s => simp [getCell_writeCell_self _ h]

theorem getCell_setStabilityAt_other (b : Board) (x y v x' y' : Int)
    (hne : x ≠ x' ∨ y ≠ y') :
    (b.setStabilityAt x y v).getCell x' y' = b.getCell x' y' := by
  unfold setStabilityAt
  cases h : b.getCell x y with
  | none => rfl
  | some s => exact getCell_writeCell_other x y _ x' y' hne

theorem size_addStabilityAt (b : Board) (x y d : Int) :
    (b.addStabilityAt x y d).size = b.size := by
  unfold addStabilityAt
  cases b.getCell x y
  · rfl
  · exact size_writeCell ..

theorem size_setStabilityAt (b : Board) (x y v : Int) :
    (b.setStabilityAt x y v).size = b.size := by
  unfold setStabilityAt
  cases b.getCell x y
  · rfl
  · exact size_writeCell ..

theorem WF.writeCell_pres {b : Board} (h : b.WF) (x y v : Int) : (b.writeCell x y v).WF := by
  unfold Board.writeCell
  split
  · constructor
    · simpa using h.1
    · intro r hr
      rcases List.mem_or_eq_of_mem_set hr with hr | hr
      · exact h.2 r hr
      · subst hr
        rw [List.length_set]
        by_cases hy : y.toNat < b.cells.length
        · refine h.2 _ ?_
          rw [List.getElem?_eq_getElem hy]
          exact List.getElem_mem hy
        · exfalso
          have hvp : b.isValidPosition x y = true := by assumption
          unfold Board.isValidPosition at hvp
          simp only [Bool.and_eq_true, decide_eq_true_eq] at hvp
          have hlen := h.1
          omega
  · exact h

theorem WF.addStabilityAt_pres {b : Board} (h : b.WF) (x y d : Int) :
    (b.addStabilityAt x y d).WF := by
  unfold Board.addStabilityAt
  cases b.getCell x y
  · exact h
  · exact h.writeCell_pres ..

theorem WF.setStabilityAt_pres {b : Board} (h : b.WF) (x y v : Int) :
    (b.setStabilityAt x y v).WF := by
  unfold Board.setStabilityAt
  cases b.getCell x y
  · exact h
  · exact h.writeCell_pres ..

theorem WF.resetAt_pres {b : Board} (h : b.WF) (x y : Int) :
    (b.resetAt x y).WF := by
  unfold Board.resetAt
  cases b.getCell x y
  · exact h
  · exact h.writeCell_pres ..

theorem size_resetAt (b : Board) (x y : Int) : (b.resetAt x y).size = b.size := by
  unfold resetAt
  cases b.getCell x y
  · rfl
  · exact size_writeCell ..

/-- Two well-formed boards of the same size with the same cell contents are
equal. -/
theorem ext_of_getCell {b₁ b₂ : Board} (hs : b₁.size = b₂.size)
    (h₁ : b₁.WF) (h₂ : b₂.WF)
    (h : ∀ x y : Int, b₁.getCell x y = b₂.getCell x y) : b₁ = b₂ := by
  obtain ⟨s₁, c₁⟩ := b₁
  obtain ⟨s₂, c₂⟩ := b₂
  obtain rfl : s₁ = s₂ := hs
  have hl₁ : c₁.length = s₁ := h₁.1
  have hrr₁ : ∀ r ∈ c₁, r.length = s₁ := h₁.2
  have hl₂ : c₂.length = s₁ := h₂.1
  have hrr₂ : ∀ r ∈ c₂, r.length = s₁ := h₂.2
  simp only [Board.mk.injEq, true_and]
  apply List.ext_getElem?
  intro j
  by_cases hj : j < s₁
  · have hj₁ : j < c₁.length := by omega
    have hj₂ : j < c₂.length := by omega
    rw [List.getElem?_eq_getElem hj₁, List.getElem?_eq_getElem hj₂]
    have hrow₁ : c₁[j].length = s₁ := hrr₁ _ (List.getElem_mem hj₁)
    have hrow₂ : c₂[j].length = s₁ := hrr₂ _ (List.getElem_mem hj₂)
    congr 1
    apply List.ext_getElem?
    intro i
    by_cases hi : i < s₁
    · have hcell := h (i : Int) (j : Int)
      unfold getCell isValidPosition at hcell
      have hvalid : (decide (0 ≤ (i : Int)) && decide ((i : Int) < (s₁ : Int)) &&
          decide (0 ≤ (j : Int)) && decide ((j : Int) < (s₁ : Int))) = true := by
        simp only [Bool.and_eq_true, decide_eq_true_eq]
        omega
      simp only [hvalid, if_pos] at hcell
      simpa [Int.toNat_natCast, List.getElem?_eq_getElem, hj₁, hj₂] using hcell
    · rw [List.getElem?_eq_none (by rw [hrow₁]; omega),
        List.getElem?_eq_none (by rw [hrow₂]; omega)]
  · rw [List.getElem?_eq_none (by omega), List.getElem?_eq_none (by omega)]

end Board

/-- Turn-context options handed to card callbacks by `getCardOptions`.
`opponentTargetPositions` is the S10 option that the engine never populates;
the `lastColorCard` wiring for S02 is not modelled (no claim touches S02). -/
structure OptionsM where
  currentTurn : Int := 0
  totalTurns : Int := 0
  remainingTurns : Int := 0
  opponentTargetPositions : Option (List Pos) := none

/-- Card family tag (`CardType` in the source). -/
inductive CardKind where
  | color
  | fort
  | special
deriving DecidableEq, Repr

/-- A card: identity, family, `power`, and the three polymorphic callbacks. -/
structure CardM where
  id : CardId
  kind : CardKind
  power : Int
  canPlay : Board → Pos → PlayerId → OptionsM → Bool
  targets : Board → Pos → PlayerId → OptionsM → List Pos
  applyEffect : Board → Pos → PlayerId → OptionsM → Board

/-- The signed delta of an Area/Boost card:
`playerId === 'A' ? power : -power`. -/
def famDelta (power : Int) : PlayerId → Int
  | .A => power
  | .B => -power

/-- The shared `ColorCard.applyEffect` / `FortCard.applyEffect` loop: add the
signed delta to every (precomputed) target cell that exists. -/
def famApply (tgts : List Pos) (delta : Int) (b : Board) : Board :=
  tgts.foldl (fun b p => b.addStabilityAt p.x p.y delta) b

/-- Base-class `canPlay`: any in-bounds cell. -/
def anyCellCanPlay : Board → Pos → PlayerId → OptionsM → Bool :=
  fun b p _ _ => b.isValidPosition p.x p.y

/-- Build a `ColorCard` subclass from its pattern. -/
def mkColorCard (id : CardId) (power : Int)
    (canPlay : Board → Pos → PlayerId → OptionsM → Bool)
    (targets : Board → Pos → PlayerId → OptionsM → List Pos) : CardM :=
  { id := id, kind := .color, power := power, canPlay := canPlay, targets := targets,
    applyEffect := fun b p pid o => famApply (targets b p pid o) (famDelta power pid) b }

/-- Build a `FortCard` subclass from its pattern. -/
def mkFortCard (id : CardId) (power : Int)
    (canPlay : Board → Pos → PlayerId → OptionsM → Bool)
    (targets : Board → Pos → PlayerId → OptionsM → List Pos) : CardM :=
  { id := id, kind := .fort, power := power, canPlay := canPlay, targets := targets,
    applyEffect := fun b p pid o => famApply (targets b p pid o) (famDelta power pid) b }

/-- `C01` (single point): any cell, pattern is just the target. -/
def C01M : CardM :=
  mkColorCard (.C 1) 1 anyCellCanPlay (fun _ p _ _ => [p])

/-- `C06_Corner3.canPlay`: only the four corners. -/
def C06canPlay (b : Board) (p : Pos) : Bool :=
  let size : Int := b.size
  (decide (p.x = 0) && decide (p.y = 0)) ||
  (decide (p.x = 0) && decide (p.y = size - 1)) ||
  (decide (p.x = size - 1) && decide (p.y = 0)) ||
  (decide (p.x = size - 1) && decide (p.y = size - 1))

/-- `C06_Corner3.getTargetPositions`: corner plus the two inward cells; a
non-corner target keeps only the initial `[position]` entry. -/
def C06targets (b : Board) (p : Pos) : List Pos :=
  let size : Int := b.size
  let positions :=
    if p.x = 0 ∧ p.y = 0 then [p, ⟨1, 0⟩, ⟨0, 1⟩]
    else if p.x = 0 ∧ p.y = size - 1 then [p, ⟨1, size - 1⟩, ⟨0, size - 2⟩]
    else if p.x = size - 1 ∧ p.y = 0 then [p, ⟨size - 2, 0⟩, ⟨size - 1, 1⟩]
    else if p.x = size - 1 ∧ p.y = size - 1 then
      [p, ⟨size - 2, size - 1⟩, ⟨size - 1, size - 2⟩]
    else [p]
  positions.filter (fun q => b.isValidPosition q.x q.y)

/-- `C06` (corner-only 3 cells). -/
def C06M : CardM :=
  mkColorCard (.C 6) 1 (fun b p _ _ => C06canPlay b p) (fun b p _ _ => C06targets b p)

/-- `F01` (single own-cell boost): only own cells, pattern the target when
still owned. -/
def F01M : CardM :=
  mkFortCard (.F 1) 2
    (fun b p pid _ =>
      match b.getCell p.x p.y with
      | some s => isOwnedBy s pid
      | none => false)
    (fun b p pid _ =>
      match b.getCell p.x p.y with
      | some s => if isOwnedBy s pid then [p] else []
      | none => [])

/-!
## The simultaneous color-card phase

`applyColorCardsSimultaneously` first folds both players' target lists into an
insertion-ordered per-cell delta map (`changes.set(key, (changes.get(key) ||
0) + delta)`), then applies each accumulated delta with one add-and-clip.
-/

/-- One `changes.set(key, (changes.get(key) || 0) + delta)` step on the
insertion-ordered association list. -/
def accumChange : List (Pos × Int) → Pos → Int → List (Pos × Int)
  | [], p, d => [(p, d)]
  | (q, v) :: rest, p, d =>
      if q = p then (q, v + d) :: rest else (q, v) :: accumChange rest p d

/-- Accumulate one player's whole target list with its signed delta. -/
def accumChanges (cs : List (Pos × Int)) (ps : List Pos) (d : Int) : List (Pos × Int) :=
  ps.foldl (fun cs p => accumChange cs p d) cs

/-- Apply the accumulated per-cell sums, one add-and-clip each. -/
def applyChanges (b : Board) (cs : List (Pos × Int)) : Board :=
  cs.foldl (fun b pd => b.addStabilityAt pd.1.x pd.1.y pd.2) b

/-- `GameManager.applyColorCardsSimultaneously`, with each (enabled) card's
target list and signed delta already computed from the unmutated board. -/
def applyColorCardsSimultaneouslyCore (b : Board)
    (tA : List Pos) (dA : Int) (tB : List Pos) (dB : Int) : Board :=
  applyChanges b (accumChanges (accumChanges [] tA dA) tB dB)

/-- The delta recorded for a key in the accumulated association list. -/
def chVal : List (Pos × Int) → Pos → Int
  | [], _ => 0
  | (q, v) :: rest, p => if q = p then v else chVal rest p

/-- The insertion-ordered key list. -/
def chKeys (cs : List (Pos × Int)) : List Pos :=
  cs.map Prod.fst

theorem chVal_accumChange_eq (cs : List (Pos × Int)) (p p' : Pos) (d : Int) :
    chVal (accumChange cs p d) p' = chVal cs p' + (if p = p' then d else 0) := by
  induction cs with
  | nil =>
    by_cases h : p = p' <;> simp [accumChange, chVal, h]
  | cons qv rest ih =>
    obtain ⟨q, v⟩ := qv
    by_cases hq : q = p
    · subst hq
      by_cases hq' : q = p' <;> simp [accumChange, chVal, hq']
    · by_cases hq' : q = p'
      · have hpp' : ¬ p = p' := by
          rw [← hq']
          exact fun hh => hq hh.symm
        simp [accumChange, chVal, hq, hq', hpp', show ¬ p' = p from fun hh => hpp' hh.symm]
      · simp [accumChange, chVal, hq, hq', ih]

theorem mem_chKeys_accumChange (cs : List (Pos × Int)) (p p' : Pos) (d : Int) :
    p' ∈ chKeys (accumChange cs p d) ↔ p' ∈ chKeys cs ∨ p' = p := by
  induction cs with
  | nil => simp [accumChange, chKeys]
  | cons qv rest ih =>
    obtain ⟨q, v⟩ := qv
    by_cases hq : q = p <;>
      simp only [accumChange, hq, ite_true, ite_false, if_neg, not_false_iff, chKeys,
        List.map_cons, List.mem_cons] at ih ⊢ <;>
      tauto

theorem nodup_chKeys_accumChange (cs : List (Pos × Int)) (p : Pos) (d : Int)
    (h : (chKeys cs).Nodup) : (chKeys (accumChange cs p d)).Nodup := by
  induction cs with
  | nil => simp [accumChange, chKeys]
  | cons qv rest ih =>
    obtain ⟨q, v⟩ := qv
    simp only [chKeys, List.map_cons, List.nodup_cons] at h
    by_cases hq : q = p
    · subst hq
      simp only [accumChange, ite_true, chKeys, List.map_cons, List.nodup_cons]
      exact h
    · simp only [accumChange, if_neg hq, chKeys, List.map_cons, List.nodup_cons]
      refine ⟨fun hmem => ?_, ih h.2⟩
      rcases (mem_chKeys_accumChange rest p q d).1 hmem with hmem | hmem
      · exact h.1 hmem
      · exact hq hmem

theorem chVal_accumChanges (cs : List (Pos × Int)) (ps : List Pos) (d : Int) (p : Pos) :
    chVal (accumChanges cs ps d) p = chVal cs p + d * ps.count p := by
  induction ps generalizing cs with
  | nil => simp [accumChanges]
  | cons q qs ih =>
    unfold accumChanges at *
    rw [List.foldl_cons, ih, chVal_accumChange_eq]
    by_cases h : q = p
    · subst h
      rw [List.count_cons_self]
      simp only [eq_self_iff_true, ite_true]
      push_cast
      ring
    · rw [List.count_cons_of_ne (by exact fun hh => h hh.symm)]
      simp [h]

theorem mem_chKeys_accumChanges (cs : List (Pos × Int)) (ps : List Pos) (d : Int) (p : Pos) :
    p ∈ chKeys (accumChanges cs ps d) ↔ p ∈ chKeys cs ∨ p ∈ ps := by
  induction ps generalizing cs with
  | nil => simp [accumChanges]
  | cons q qs ih =>
    unfold accumChanges at *
    rw [List.foldl_cons, ih, mem_chKeys_accumChange]
    simp only [List.mem_cons]
    tauto

theorem nodup_chKeys_accumChanges (cs : List (Pos × Int)) (ps : List Pos) (d : Int)
    (h : (chKeys cs).Nodup) : (chKeys (accumChanges cs ps d)).Nodup := by
  induction ps generalizing cs with
  | nil => simpa [accumChanges]
  | cons q qs ih =>
    unfold accumChanges at *
    rw [List.foldl_cons]
    exact ih _ (nodup_chKeys_accumChange _ _ _ h)

/-- Pointwise description of applying an accumulated delta map with
pairwise-distinct keys: each listed cell gets one add-and-clip of its total,
every other cell is untouched. -/
theorem getCell_applyChanges (b : Board) (cs : List (Pos × Int))
    (hnd : (chKeys cs).Nodup) (x y : Int) :
    (applyChanges b cs).getCell x y =
      if (⟨x, y⟩ : Pos) ∈ chKeys cs then
        (b.getCell x y).map (fun s => clip (s + chVal cs ⟨x, y⟩))
      else b.getCell x y := by
  induction cs generalizing b with
  | nil => simp [applyChanges, chKeys, chVal]
  | cons qv rest ih =>
    obtain ⟨q, v⟩ := qv
    have hpair : q ∉ chKeys rest ∧ (chKeys rest).Nodup := by
      simpa [chKeys] using hnd
    unfold applyChanges at *
    rw [List.foldl_cons, ih _ hpair.2]
    by_cases hqeq : q = (⟨x, y⟩ : Pos)
    · subst hqeq
      rw [if_neg hpair.1, if_pos (by simp [chKeys])]
      show (b.addStabilityAt x y v).getCell x y = _
      rw [Board.getCell_addStabilityAt_self]
      simp [chVal]
    · have hxy : q.x ≠ x ∨ q.y ≠ y := by
        by_contra hcon
        push_neg at hcon
        exact hqeq (by cases q; simp_all)
      have hmem_iff : (⟨x, y⟩ : Pos) ∈ chKeys ((q, v) :: rest) ↔
          (⟨x, y⟩ : Pos) ∈ chKeys rest := by
        simp only [chKeys, List.map_cons, List.mem_cons]
        constructor
        · rintro (hh | hh)
          · exact absurd hh.symm hqeq
          · exact hh
        · exact Or.inr
      have hval : chVal ((q, v) :: rest) ⟨x, y⟩ = chVal rest ⟨x, y⟩ := by
        simp [chVal, hqeq]
      rw [Board.getCell_addStabilityAt_other b q.x q.y v x y hxy, hval]
      by_cases hm : (⟨x, y⟩ : Pos) ∈ chKeys rest
      · rw [if_pos hm, if_pos (hmem_iff.2 hm)]
      · rw [if_neg hm, if_neg (fun hh => hm (hmem_iff.1 hh))]

theorem size_applyChanges (b : Board) (cs : List (Pos × Int)) :
    (applyChanges b cs).size = b.size := by
  induction cs generalizing b with
  | nil => rfl
  | cons qv rest ih =>
    unfold applyChanges at *
    rw [List.foldl_cons, ih, Board.size_addStabilityAt]

theorem wf_applyChanges {b : Board} (h : b.WF) (cs : List (Pos × Int)) :
    (applyChanges b cs).WF := by
  induction cs generalizing b with
  | nil => exact h
  | cons qv rest ih =>
    unfold applyChanges at *
    rw [List.foldl_cons]
    exact ih (h.addStabilityAt_pres ..)

theorem inv_applyChanges {b : Board} (h : b.Inv) (cs : List (Pos × Int)) :
    (applyChanges b cs).Inv := by
  induction cs generalizing b with
  | nil => exact h
  | cons qv rest ih =>
    unfold applyChanges at *
    rw [List.foldl_cons]
    exact ih (Board.Inv.addStabilityAt h qv.1.x qv.1.y qv.2)

/-- Pointwise sum-first description of the simultaneous color phase: a cell
targeted by either card receives, in one add-and-clip, the sum of both
players' per-occurrence deltas; every other cell is untouched. -/
theorem simultaneousCore_getCell (b : Board) (tA tB : List Pos) (dA dB : Int) (x y : Int) :
    (applyColorCardsSimultaneouslyCore b tA dA tB dB).getCell x y =
      if (⟨x, y⟩ : Pos) ∈ tA ∨ (⟨x, y⟩ : Pos) ∈ tB then
        (b.getCell x y).map
          (fun s => clip (s + (dA * tA.count ⟨x, y⟩ + dB * tB.count ⟨x, y⟩)))
      else b.getCell x y := by
  unfold applyColorCardsSimultaneouslyCore
  have hnd : (chKeys (accumChanges (accumChanges [] tA dA) tB dB)).Nodup :=
    nodup_chKeys_accumChanges _ _ _ (nodup_chKeys_accumChanges _ _ _ (by simp [chKeys]))
  rw [getCell_applyChanges _ _ hnd x y]
  have hval : chVal (accumChanges (accumChanges [] tA dA) tB dB) ⟨x, y⟩ =
      dA * tA.count ⟨x, y⟩ + dB * tB.count ⟨x, y⟩ := by
    rw [chVal_accumChanges, chVal_accumChanges]
    simp [chVal]
  have hmem : (⟨x, y⟩ : Pos) ∈ chKeys (accumChanges (accumChanges [] tA dA) tB dB) ↔
      (⟨x, y⟩ : Pos) ∈ tA ∨ (⟨x, y⟩ : Pos) ∈ tB := by
    rw [mem_chKeys_accumChanges, mem_chKeys_accumChanges]
    simp [chKeys]
  rw [hval]
  by_cases hm : (⟨x, y⟩ : Pos) ∈ tA ∨ (⟨x, y⟩ : Pos) ∈ tB
  · rw [if_pos (hmem.2 hm), if_pos hm]
  · rw [if_neg (fun hh => hm (hmem.1 hh)), if_neg hm]

theorem size_simultaneousCore (b : Board) (tA tB : List Pos) (dA dB : Int) :
    (applyColorCardsSimultaneouslyCore b tA dA tB dB).size = b.size :=
  size_applyChanges ..

theorem wf_simultaneousCore {b : Board} (hwf : b.WF) (tA tB : List Pos) (dA dB : Int) :
    (applyColorCardsSimultaneouslyCore b tA dA tB dB).WF :=
  wf_applyChanges hwf _

/-- Swapping which player's contribution is accumulated first does not change
the resulting board. -/
theorem simultaneousCore_comm {b : Board} (hwf : b.WF) (tA tB : List Pos) (dA dB : Int) :
    applyColorCardsSimultaneouslyCore b tA dA tB dB =
      applyColorCardsSimultaneouslyCore b tB dB tA dA := by
  apply Board.ext_of_getCell
  · rw [size_simultaneousCore, size_simultaneousCore]
  · exact wf_simultaneousCore hwf ..
  · exact wf_simultaneousCore hwf ..
  · intro x y
    rw [simultaneousCore_getCell, simultaneousCore_getCell]
    by_cases hm : (⟨x, y⟩ : Pos) ∈ tA ∨ (⟨x, y⟩ : Pos) ∈ tB
    · rw [if_pos hm, if_pos (Or.symm hm)]
      have : dA * tA.count ⟨x, y⟩ + dB * tB.count ⟨x, y⟩ =
          dB * tB.count ⟨x, y⟩ + dA * tA.count ⟨x, y⟩ := by ring
      rw [this]
    · rw [if_neg hm, if_neg (fun hh => hm (Or.symm hh))]

/-!
## Special cards needed by the engine pipeline
-/

/-- `S07_TimeBomb.getTargetPositions`: the in-bounds 3×3 block around the
target. -/
def S07targetPositions (b : Board) (p : Pos) : List Pos :=
  (List.range 3).flatMap (fun dy =>
    (List.range 3).filterMap (fun dx =>
      let q : Pos := ⟨p.x + (dx : Int) - 1, p.y + (dy : Int) - 1⟩
      if b.isValidPosition q.x q.y then some q else none))

/-- `S07_TimeBomb.explode`: own cells gain 2 away from zero, enemy cells move
1 toward zero, neutral cells are untouched. -/
def bombExplode (b : Board) (p : Pos) (pid : PlayerId) : Board :=
  (S07targetPositions b p).foldl
    (fun b q =>
      match b.getCell q.x q.y with
      | some s =>
          if isOwnedBy s pid then b.addStabilityAt q.x q.y (famDelta 2 pid)
          else if isOwnedByEnemy s pid then b.addStabilityAt q.x q.y (famDelta 1 pid)
          else b
      | none => b)
    b

/-- `S03_Overload.applyEffect`: set the target to the acting player's cap and
push each orthogonal neighbor one step toward the opponent. -/
def S03apply (b : Board) (p : Pos) (pid : PlayerId) : Board :=
  let b1 := b.setStabilityAt p.x p.y (famDelta 5 pid)
  let neighbors : List Pos :=
    [⟨p.x, p.y - 1⟩, ⟨p.x, p.y + 1⟩, ⟨p.x - 1, p.y⟩, ⟨p.x + 1, p.y⟩]
  neighbors.foldl
    (fun b q => b.addStabilityAt q.x q.y (famDelta (-1) pid)) b1

/-- `S03` (Overload). -/
def S03M : CardM :=
  { id := .S 3, kind := .special, power := 0,
    canPlay := fun b p pid _ =>
      match b.getCell p.x p.y with
      | some s => isOwnedBy s pid
      | none => false,
    targets := fun _ p _ _ => [p],
    applyEffect := fun b p pid _ => S03apply b p pid }

/-- `S04` (Double action): no board effect of its own; handled by the engine. -/
def S04M : CardM :=
  { id := .S 4, kind := .special, power := 0, canPlay := anyCellCanPlay,
    targets := fun _ p _ _ => [p], applyEffect := fun b _ _ _ => b }

/-- `S05` (Special jammer): no board effect of its own; handled by the engine. -/
def S05M : CardM :=
  { id := .S 5, kind := .special, power := 0, canPlay := anyCellCanPlay,
    targets := fun _ p _ _ => [p], applyEffect := fun b _ _ _ => b }

/-- `S07` (Time bomb): `applyEffect` only records card-internal state, so the
board is unchanged; registration and explosion are handled by the engine. -/
def S07M : CardM :=
  { id := .S 7, kind := .special, power := 0, canPlay := anyCellCanPlay,
    targets := fun b p _ _ => S07targetPositions b p, applyEffect := fun b _ _ _ => b }

/-- The reward branch of `S10_TargetLock.applyEffect`: pin the locked cell to
the acting player's cap, then add the (clipped-away) extra 2. -/
def S10hit (b : Board) (p : Pos) (pid : PlayerId) : Board :=
  (b.setStabilityAt p.x p.y (famDelta 5 pid)).addStabilityAt p.x p.y (famDelta 2 pid)

/-- The penalty branch of `S10_TargetLock.applyEffect`: depends on the locked
cell's current ownership. -/
def S10miss (b : Board) (p : Pos) (pid : PlayerId) : Board :=
  match b.getCell p.x p.y with
  | some s =>
      if isOwnedBy s pid then b.addStabilityAt p.x p.y (famDelta (-2) pid)
      else if isNeutral s then b.addStabilityAt p.x p.y (famDelta (-1) pid)
      else if isOwnedByEnemy s pid then b.addStabilityAt p.x p.y (famDelta 1 pid)
      else b
  | none => b

/-- `S10_TargetLock.applyEffect`: `isHit` iff the locked position occurs in
`options.opponentTargetPositions || []`. -/
def S10apply (b : Board) (p : Pos) (pid : PlayerId) (o : OptionsM) : Board :=
  if (o.opponentTargetPositions.getD []).any
      (fun q => decide (q.x = p.x) && decide (q.y = p.y)) then
    S10hit b p pid
  else S10miss b p pid

/-- `S10` (Target lock). -/
def S10M : CardM :=
  { id := .S 10, kind := .special, power := 0, canPlay := anyCellCanPlay,
    targets := fun _ p _ _ => [p], applyEffect := fun b p pid o => S10apply b p pid o }

/-!
## The turn-resolution engine (`GameManager`)
-/

/-- `CardSelection` (`cardId`, `targetPosition`; the optional
rotation/direction modifiers are never read by `GameManager.getCardOptions`
and are omitted). -/
structure Selection where
  cardId : CardId
  targetPosition : Pos
deriving DecidableEq, Repr

/-- One pending time bomb (`{ bomb, position, playerId, turn, explosionTurn }`;
the `bomb` card reference carries no state the explosion reads). -/
structure TimeBombEntry where
  position : Pos
  playerId : PlayerId
  turn : Int
  explosionTurn : Int
deriving DecidableEq, Repr

/-- `GameState` in the source. -/
inductive GPhase where
  | setup
  | selecting
  | resolving
  | finished
deriving DecidableEq, Repr

/-- The sources of randomness (`Math.random`) used by the engine: the
shuffle of `[...cells].sort(() => Math.random() - 0.5)` and the index pick
`Math.floor(Math.random() * n)`. -/
structure Oracle where
  shuffle : List Pos → List Pos
  pickIdx : Nat → Nat

/-- A deterministic oracle for concrete runs. -/
def idOracle : Oracle := ⟨fun l => l, fun _ => 0⟩

/-- The `GameManager` state (plus each `Player`'s hand and used-card set). -/
structure GState where
  board : Board
  handA : List CardM
  handB : List CardM
  usedA : List CardId
  usedB : List CardId
  currentTurn : Int
  totalTurns : Int
  phase : GPhase
  selA : Option Selection
  selB : Option Selection
  timeBombs : List TimeBombEntry
  daActiveA : Bool
  daActiveB : Bool
  daRemainingA : Int
  daRemainingB : Int
  daFirstA : Option Selection
  daFirstB : Option Selection
  skipA : Bool
  skipB : Bool
  lastColorA : Option CardM
  lastColorB : Option CardM

namespace GState

def hand (g : GState) : PlayerId → List CardM
  | .A => g.handA
  | .B => g.handB

def used (g : GState) : PlayerId → List CardId
  | .A => g.usedA
  | .B => g.usedB

def sel (g : GState) : PlayerId → Option Selection
  | .A => g.selA
  | .B => g.selB

def skip (g : GState) : PlayerId → Bool
  | .A => g.skipA
  | .B => g.skipB

def daActive (g : GState) : PlayerId → Bool
  | .A => g.daActiveA
  | .B => g.daActiveB

def daRemaining (g : GState) : PlayerId → Int
  | .A => g.daRemainingA
  | .B => g.daRemainingB

def setSel (g : GState) : PlayerId → Option Selection → GState
  | .A, s => { g with selA := s }
  | .B, s => { g with selB := s }

def setSkip (g : GState) : PlayerId → Bool → GState
  | .A, v => { g with skipA := v }
  | .B, v => { g with skipB := v }

def setDaActive (g : GState) : PlayerId → Bool → GState
  | .A, v => { g with daActiveA := v }
  | .B, v => { g with daActiveB := v }

def setDaRemaining (g : GState) : PlayerId → Int → GState
  | .A, v => { g with daRemainingA := v }
  | .B, v => { g with daRemainingB := v }

def setDaFirst (g : GState) : PlayerId → Option Selection → GState
  | .A, v => { g with daFirstA := v }
  | .B, v => { g with daFirstB := v }

def setLastColor (g : GState) : PlayerId → Option CardM → GState
  | .A, v => { g with lastColorA := v }
  | .B, v => { g with lastColorB := v }

def addUsed (g : GState) : PlayerId → CardId → GState
  | .A, cid => { g with usedA := g.usedA ++ [cid] }
  | .B, cid => { g with usedB := g.usedB ++ [cid] }

/-- `Player.getHand`: the hand minus already-used cards. -/
def getHand (g : GState) (pid : PlayerId) : List CardM :=
  (g.hand pid).filter (fun c => !((g.used pid).contains c.id))

/-- `Player.useCard`: consume an unused card from the hand, or fail.  (The
player-side `lastColorCard` it records is shadowed by the engine-side copy,
which is the one `getCardOptions` reads.) -/
def useCard (g : GState) (pid : PlayerId) (cid : CardId) : Option CardM × GState :=
  match (g.hand pid).find? (fun c => c.id == cid) with
  | none => (none, g)
  | some card =>
      if (g.used pid).contains cid then (none, g)
      else (some card, g.addUsed pid cid)

/-- `getRemainingTurns`. -/
def getRemainingTurns (g : GState) : Int :=
  g.totalTurns - g.currentTurn + 1

end GState

/-- `cardId.startsWith('C')` on the structured card id. -/
def CardId.startsWithC : CardId → Bool
  | .C _ => true
  | _ => false

/-- `GameManager.getCardOptions`.  The `S02` branch copies the engine-side
last color card (not modelled; no claim reads it) and the `S10` branch is
empty in the source, so `opponentTargetPositions` is never populated. -/
def getCardOptions (g : GState) (card : CardM) (pid : PlayerId) : OptionsM :=
  { currentTurn := g.currentTurn, totalTurns := g.totalTurns,
    remainingTurns := g.getRemainingTurns, opponentTargetPositions := none }

/-- `GameManager.selectCard`: returns whether the selection was accepted and
the updated state. -/
def selectCard (g : GState) (pid : PlayerId) (s : Selection) : Bool × GState :=
  if g.phase ≠ .selecting then (false, g)
  else if g.skip pid then (false, g)
  else
    match (g.getHand pid).find? (fun c => c.id == s.cardId) with
    | none => (false, g)
    | some card =>
        if (g.used pid).contains s.cardId then (false, g)
        else if g.daActive pid && !card.id.startsWithC then (false, g)
        else if !(card.canPlay g.board s.targetPosition pid (getCardOptions g card pid)) then
          -- hand-exhaustion misfire: accepted when this is the only card left
          if (g.getHand pid).length = 1 then (true, g.setSel pid (some s))
          else (false, g)
        else (true, g.setSel pid (some s))

/-- `GameManager.areBothPlayersReady`.  Every branch of the source returns
the same `aReady && bReady` expression; the branch structure is kept. -/
def areBothPlayersReady (g : GState) : Bool :=
  let aReady := g.skipA || g.selA.isSome
  let bReady := g.skipB || g.selB.isSome
  if !g.daActiveA && !g.daActiveB then aReady && bReady
  else if g.daActiveA && decide (g.daRemainingA > 1) && g.selA.isSome then aReady && bReady
  else if g.daActiveA && decide (g.daRemainingA = 1) && g.selA.isSome then aReady && bReady
  else if g.daActiveB && decide (g.daRemainingB > 1) && g.selB.isSome then aReady && bReady
  else if g.daActiveB && decide (g.daRemainingB = 1) && g.selB.isSome then aReady && bReady
  else aReady && bReady

/-- The per-player owned-cell scan of `applyPenalty` (row-major, y outer). -/
def ownedCellsList (b : Board) (pid : PlayerId) : List Pos :=
  (List.range b.size).flatMap (fun y =>
    (List.range b.size).filterMap (fun x =>
      match b.getCell (x : Int) (y : Int) with
      | some s => if isOwnedBy s pid then some ⟨(x : Int), (y : Int)⟩ else none
      | none => none))

/-- The board part of `GameManager.applyPenalty`: shuffle the acting player's
owned cells, take up to `count`, and move each one step toward neutral. -/
def applyPenaltyBoard (shuffle : List Pos → List Pos) (b : Board) (pid : PlayerId)
    (count : Nat) : Board :=
  let ownCells := ownedCellsList b pid
  let shuffled := shuffle ownCells
  let selected := shuffled.take (min count ownCells.length)
  selected.foldl (fun b p => b.addStabilityAt p.x p.y (famDelta (-1) pid)) b

/-- `GameManager.applyPenalty`. -/
def applyPenalty (o : Oracle) (g : GState) (pid : PlayerId) (count : Nat) : GState :=
  { g with board := applyPenaltyBoard o.shuffle g.board pid count }

/-- `GameManager.checkTimeBombs`: detonate (in order) every pending bomb with
`explosionTurn ≤ currentTurn` and keep the rest. -/
def checkTimeBombs (g : GState) : GState :=
  if g.timeBombs.isEmpty then g
  else
    let toExplode := g.timeBombs.filter (fun e => decide (e.explosionTurn ≤ g.currentTurn))
    let remaining := g.timeBombs.filter (fun e => decide (g.currentTurn < e.explosionTurn))
    { g with
      board := toExplode.foldl (fun b e => bombExplode b e.position e.playerId) g.board
      timeBombs := remaining }

/-- `GameManager.applyColorCard`: apply the card's polymorphic effect, then
record it as the player's last color card. -/
def applyColorCard (g : GState) (card : CardM) (s : Selection) (pid : PlayerId) : GState :=
  let options := getCardOptions g card pid
  let b := card.applyEffect g.board s.targetPosition pid options
  ({ g with board := b }).setLastColor pid (some card)

/-- `GameManager.applyFortCard`. -/
def applyFortCard (g : GState) (card : CardM) (s : Selection) (pid : PlayerId) : GState :=
  let options := getCardOptions g card pid
  { g with board := card.applyEffect g.board s.targetPosition pid options }

/-- One player's contribution to the simultaneous color phase: when an
enabled color card is present, accumulate its per-cell deltas and record it
as the player's last color card. -/
def simultStep (g : GState) (prev : List (Pos × Int)) (card? : Option CardM)
    (s : Selection) (pid : PlayerId) (enabled : Bool) : List (Pos × Int) × GState :=
  match card?, enabled with
  | some c, true =>
      let options := getCardOptions g c pid
      let targets := c.targets g.board s.targetPosition pid options
      (accumChanges prev targets (famDelta c.power pid), g.setLastColor pid (some c))
  | _, _ => (prev, g)

/-- `GameManager.applyColorCardsSimultaneously` on the engine state:
accumulate each enabled color card's per-cell deltas (recording the last
color card), then apply the summed deltas. -/
def applyColorCardsSimultaneouslyG (g : GState)
    (cardA : Option CardM) (sA : Selection) (pidA : PlayerId) (enabledA : Bool)
    (cardB : Option CardM) (sB : Selection) (pidB : PlayerId) (enabledB : Bool) : GState :=
  let step1 := simultStep g [] cardA sA pidA enabledA
  let step2 := simultStep step1.2 step1.1 cardB sB pidB enabledB
  { step2.2 with board := applyChanges step2.2.board step2.1 }

/-- The random pattern cell stolen by S06
(`opponentTargets[Math.floor(Math.random() * opponentTargets.length)]`). -/
def S06stealPos (o : Oracle) (opponentTargets : List Pos) : Pos :=
  opponentTargets.getD (o.pickIdx opponentTargets.length % opponentTargets.length) ⟨0, 0⟩

/-- The random one-cell steal at the start of the S06 success branch. -/
def S06steal (o : Oracle) (g : GState) (opponentTargets : List Pos) (pid : PlayerId) :
    GState :=
  if opponentTargets.length > 0 then
    { g with board := g.board.addStabilityAt (S06stealPos o opponentTargets).x (S06stealPos o opponentTargets).y (famDelta 1 pid) }
  else g

/-- The pattern replay at the end of the S06 success branch. -/
def S06replay (g1 : GState) (oc : CardM) (p : Pos) (pid : PlayerId) : GState :=
  { g1 with board := famApply (oc.targets g1.board p pid (getCardOptions g1 oc pid)) (famDelta oc.power pid) g1.board }

/-- The color-gamble success branch of `applySpecialCard` (S06, opponent
played a color card): steal one random cell of the opponent's pattern, then
replay that pattern for the acting player. -/
def S06applyG (o : Oracle) (g : GState) (oc : CardM) (p : Pos) (pid : PlayerId)
    (osel : Selection) : GState :=
  S06replay
    (S06steal o g
      (oc.targets g.board osel.targetPosition pid.opponent (getCardOptions g oc pid)) pid)
    oc p pid

/-- The double-action branch of `applySpecialCard` (S04): degenerate to a
single-point paint when at most one other color card remains in hand
(`remainingColorCards`), otherwise arm the two-play multi-action state. -/
def S04applyG (g : GState) (p : Pos) (pid : PlayerId) : GState :=
  if ((g.getHand pid).filter (fun c => decide (c.id ≠ .S 4) && c.id.startsWithC)).length ≤ 1
  then { g with board := g.board.addStabilityAt p.x p.y (famDelta 1 pid) }
  else (g.setDaActive pid true).setDaRemaining pid 2

/-- `GameManager.applySpecialCard`.  The `null as any` opponent passed on the
skip-only paths would make the source throw inside the S05/S06 branches; the
embedding returns the state unchanged there (no claim reaches it). -/
def applySpecialCard (o : Oracle) (g : GState) (card : CardM) (p : Pos) (pid : PlayerId)
    (opponentCard : Option CardM) (opponentSel : Option Selection) : GState :=
  if card.id = .S 5 then
    match opponentCard with
    | some oc => if oc.kind = .special then g else applyPenalty o g pid 3
    | none => g
  else if card.id = .S 6 then
    match opponentCard, opponentSel with
    | some oc, some osel =>
        if oc.kind = .color then S06applyG o g oc p pid osel
        else applyPenalty o g pid 3
    | _, _ => g
  else if card.id = .S 7 then
    { g with timeBombs := g.timeBombs ++ [⟨p, pid, g.currentTurn, g.currentTurn + 2⟩] }
  else if card.id = .S 4 then S04applyG g p pid
  else
    let options := getCardOptions g card pid
    { g with board := card.applyEffect g.board p pid options }

/-- `GameManager.endTurn`. -/
def endTurn (g : GState) : GState :=
  let t := g.currentTurn + 1
  { g with
    currentTurn := t
    selA := none
    selB := none
    phase := if t > g.totalTurns then .finished else .selecting }

/-- Result of the per-player double-action sub-phase inside `resolveTurn`:
either an early return of the whole call, or continuation with the completion
flag. -/
inductive DAOutcome where
  | early (g : GState)
  | go (g : GState) (completed : Bool)

/-- `if (card.getType() === 'color') this.applyColorCard(...)`. -/
def applyIfColor (g : GState) (card : CardM) (s : Selection) (pid : PlayerId) : GState :=
  if card.kind = .color then applyColorCard g card s pid else g

/-- First double-action sub-play (`remaining > 1`): consume and apply the
card in isolation, remember it as the first selection, decrement the counter,
clear the pending selection and reopen selection. -/
def daFirstPlay (g : GState) (pid : PlayerId) (s : Selection) : DAOutcome :=
  match g.useCard pid s.cardId with
  | (none, _) => .early { g with phase := .selecting }
  | (some card, g1) =>
      .early { ((((applyIfColor g1 card s pid).setDaFirst pid (some s)).setDaRemaining pid
        (g.daRemaining pid - 1)).setSel pid none) with phase := .selecting }

/-- Second double-action sub-play (`remaining == 1`): consume and apply the
card, clear multi-action, arm the skip flag. -/
def daSecondPlay (g : GState) (pid : PlayerId) (s : Selection) : DAOutcome :=
  match g.useCard pid s.cardId with
  | (none, _) => .early { g with phase := .selecting }
  | (some card, g1) =>
      .go (((((applyIfColor g1 card s pid).setDaActive pid false).setDaRemaining pid
        0).setSkip pid true).setDaFirst pid none) true

/-- The per-player double-action block at the top of `resolveTurn`. -/
def daPhase (g : GState) (pid : PlayerId) (s? : Option Selection) (skip : Bool) :
    DAOutcome :=
  if g.daActive pid && !skip then
    match s? with
    | some s =>
        if g.daRemaining pid > 1 then daFirstPlay g pid s
        else if g.daRemaining pid = 1 then daSecondPlay g pid s
        else .go g false
    | none => .go g false
  else .go g false

/-- `if (card.getType() === 'fort') this.applyFortCard(...)`. -/
def applyIfFort (g : GState) (card : CardM) (s : Selection) (pid : PlayerId) : GState :=
  if card.kind = .fort then applyFortCard g card s pid else g

/-- `if (card.getType() === 'special') this.applySpecialCard(...)` with a
`null` opponent (skip path). -/
def applyIfSpecialSolo (o : Oracle) (g : GState) (card : CardM) (s : Selection)
    (pid : PlayerId) : GState :=
  if card.kind = .special then applySpecialCard o g card s.targetPosition pid none none
  else g

/-- The skip-path processing of the single non-skipping player's card. -/
def soloPhase (o : Oracle) (g : GState) (pid : PlayerId) (s? : Option Selection) : GState :=
  match s? with
  | none => { g with phase := .selecting }
  | some s =>
      match g.useCard pid s.cardId with
      | (none, _) => { g with phase := .selecting }
      | (some card, g1) =>
          endTurn (checkTimeBombs (applyIfSpecialSolo o
            (applyIfFort (applyIfColor g1 card s pid) card s pid) card s pid))

/-- `specialJammerA` / `specialJammerB`. -/
def isJam (card : CardM) : Bool :=
  (card.kind == CardKind.special) && (card.id == CardId.S 5)

/-- The simultaneous color phase of the normal path (jammer flags disable the
respective opponent contribution). -/
def colorPhase (g : GState) (cardA cardB : CardM) (sA sB : Selection) : GState :=
  if (if cardA.kind = .color then some cardA else none).isSome ||
      (if cardB.kind = .color then some cardB else none).isSome then
    applyColorCardsSimultaneouslyG g
      (if cardA.kind = .color then some cardA else none) sA .A (!(isJam cardB))
      (if cardB.kind = .color then some cardB else none) sB .B (!(isJam cardA))
  else g

/-- A's special card in player-A-then-B order. -/
def specialSeqA (o : Oracle) (g : GState) (cardA cardB : CardM) (sA sB : Selection) :
    GState :=
  if cardA.kind = CardKind.special then
    applySpecialCard o g cardA sA.targetPosition .A (some cardB) (some sB)
  else g

/-- B's special card in player-A-then-B order. -/
def specialSeqB (o : Oracle) (g : GState) (cardA cardB : CardM) (sA sB : Selection) :
    GState :=
  if cardB.kind = CardKind.special then
    applySpecialCard o g cardB sB.targetPosition .B (some cardA) (some sA)
  else g

/-- The special phase of the normal path, with the two S05 precedence
overrides. -/
def specialPhase (o : Oracle) (g : GState) (cardA cardB : CardM) (sA sB : Selection) :
    GState :=
  if isJam cardA && isJam cardB then
    applyPenalty o (applyPenalty o g .A 3) .B 3
  else if isJam cardA && (cardB.kind == CardKind.special) then
    applySpecialCard o g cardA sA.targetPosition .A (some cardB) (some sB)
  else if isJam cardB && (cardA.kind == CardKind.special) then
    applySpecialCard o g cardB sB.targetPosition .B (some cardA) (some sA)
  else specialSeqB o (specialSeqA o g cardA cardB sA sB) cardA cardB sA sB

/-- The normal-path phases once both cards are consumed: simultaneous color,
forts, specials, time bombs, end of turn. -/
def afterUse (o : Oracle) (gU : GState) (cardA cardB : CardM) (sA sB : Selection) :
    GState :=
  endTurn (checkTimeBombs (specialPhase o
    (applyIfFort (applyIfFort (colorPhase gU cardA cardB sA sB) cardA sA .A) cardB sB .B)
    cardA cardB sA sB))

/-- The normal path of `resolveTurn`: consume both cards (both `useCard`
calls run before the failure check, as in the source), then run the phases. -/
def normalPhase (o : Oracle) (g2 : GState) (sA sB : Selection) : GState :=
  match g2.useCard .A sA.cardId with
  | (cA?, gA) =>
      match gA.useCard .B sB.cardId with
      | (cB?, gB) =>
          match cA?, cB? with
          | some cardA, some cardB => afterUse o gB cardA cardB sA sB
          | _, _ => { gB with phase := .selecting }

/-- The body of `resolveTurn` once the phase has been set to `resolving`:
per-player double-action blocks, then (when no double action completed and
depending on the captured skip flags) the skip-only or normal pipeline. -/
def resolveTurnCore (o : Oracle) (g : GState) : GState :=
  match daPhase g .A g.selA g.skipA with
  | .early g1 => g1
  | .go g1 completedA =>
      match daPhase g1 .B g.selB g.skipB with
      | .early g2 => g2
      | .go g2 completedB =>
          if completedA || completedB then
            -- the opponent's pending card is NOT consumed or applied here
            endTurn g2
          else if g.skipA && g.skipB then endTurn g2
          else if g.skipA then soloPhase o g2 .B g.selB
          else if g.skipB then soloPhase o g2 .A g.selA
          else
            match g.selA, g.selB with
            | some sA, some sB => normalPhase o g2 sA sB
            | _, _ => { g2 with phase := .selecting }

/-- `GameManager.resolveTurn`: the full round pipeline. -/
def resolveTurn (o : Oracle) (g0 : GState) : GState :=
  if !(decide (g0.phase = .selecting) && areBothPlayersReady g0) then g0
  else resolveTurnCore o { g0 with phase := GPhase.resolving }

/-!
## Connected regions (`Board.getConnectedRegions`) and scoring
-/

/-- The flood-fill direction order: up, down, left, right. -/
def bfsDirections : List Pos := [⟨0, -1⟩, ⟨0, 1⟩, ⟨-1, 0⟩, ⟨1, 0⟩]

/-- The neighbors enqueued while processing `p`: unvisited, in-bounds,
same-owner (checked against the growing visited set, as in the source loop). -/
def bfsNeighbors (b : Board) (pid : PlayerId) (p : Pos) (visited : List Pos) : List Pos :=
  bfsDirections.foldl
    (fun acc d =>
      let nq : Pos := ⟨p.x + d.x, p.y + d.y⟩
      if (visited ++ acc).contains nq then acc
      else
        match b.getCell nq.x nq.y with
        | some s => if isOwnedBy s pid then acc ++ [nq] else acc
        | none => acc)
    []

/-- The BFS worklist loop (`while (queue.length > 0)`), fuelled; the fuel
bound chosen at the call site is shown sufficient below. -/
def bfsAux (b : Board) (pid : PlayerId) :
    Nat → List Pos → List Pos → List Pos → List Pos × List Pos
  | 0, _, visited, region => (region, visited)
  | _ + 1, [], visited, region => (region, visited)
  | n + 1, p :: rest, visited, region =>
      let news := bfsNeighbors b pid p visited
      bfsAux b pid n (rest ++ news) (visited ++ news) (region ++ [p])

/-- `ConnectedRegion`. -/
structure RegionM where
  positions : List Pos
  playerId : PlayerId
deriving DecidableEq, Repr

/-- The row-major scan order of the outer loops. -/
def scanOrder (size : Nat) : List Pos :=
  (List.range size).flatMap (fun (y : Nat) =>
    (List.range size).map (fun (x : Nat) => (⟨(x : Int), (y : Int)⟩ : Pos)))

/-- One outer-loop step of `getConnectedRegions`: start a BFS at `p` when it
is an unvisited owned cell. -/
def regionStep (b : Board) (pid : PlayerId) (acc : List Pos × List RegionM) (p : Pos) :
    List Pos × List RegionM :=
  match b.getCell p.x p.y with
  | some s =>
      if isOwnedBy s pid && !(acc.1.contains p) then
        let out := bfsAux b pid (b.size * b.size + 1) [p] (acc.1 ++ [p]) []
        (out.2, if out.1.length > 0 then acc.2 ++ [⟨out.1, pid⟩] else acc.2)
      else acc
  | none => acc

/-- `Board.getConnectedRegions`. -/
def getConnectedRegions (b : Board) (pid : PlayerId) : List RegionM :=
  ((scanOrder b.size).foldl (regionStep b pid) ([], [])).2

/-- One fortress shape (`FortressShape`). -/
inductive ShapePattern where
  | block2x2
  | lshape
  | cross
deriving DecidableEq, Repr

structure FortressShape where
  pattern : ShapePattern
  positions : List Pos
  minStability : Int
deriving DecidableEq, Repr

/-- `Math.min(...)` over the collected absolute stabilities. -/
def listMin : List Int → Int
  | [] => 0
  | x :: xs => xs.foldl min x

/-- One candidate shape: all cells in the region, present, owned, with
minimum absolute stability at least 2. -/
def candidateShape (b : Board) (region : List Pos) (pid : PlayerId)
    (pat : ShapePattern) (cellsOf : List Pos) (arity : Nat) : Option FortressShape :=
  if cellsOf.all (fun q => region.contains q) then
    let cellVals := cellsOf.filterMap (fun q => b.getCell q.x q.y)
    if cellVals.length = arity && cellVals.all (fun s => isOwnedBy s pid) then
      let m := listMin (cellVals.map (fun s => |s|))
      if m ≥ 2 then some ⟨pat, cellsOf, m⟩ else none
    else none
  else none

/-- `Scoring.detectFortressShapes`: 2×2 blocks, then the four L variants,
then crosses, each anchored at region cells in region order. -/
def detectFortressShapes (b : Board) (region : List Pos) (pid : PlayerId) :
    List FortressShape :=
  let blocks := region.filterMap (fun pos =>
    candidateShape b region pid .block2x2
      [pos, ⟨pos.x + 1, pos.y⟩, ⟨pos.x, pos.y + 1⟩, ⟨pos.x + 1, pos.y + 1⟩] 4)
  let lshapes := region.flatMap (fun pos =>
    [[pos, ⟨pos.x + 1, pos.y⟩, ⟨pos.x, pos.y + 1⟩],
     [pos, ⟨pos.x + 1, pos.y⟩, ⟨pos.x + 1, pos.y + 1⟩],
     [pos, ⟨pos.x, pos.y + 1⟩, ⟨pos.x + 1, pos.y + 1⟩],
     [⟨pos.x + 1, pos.y⟩, ⟨pos.x, pos.y + 1⟩, ⟨pos.x + 1, pos.y + 1⟩]].filterMap
      (fun ls => candidateShape b region pid .lshape ls 3))
  let crosses := region.filterMap (fun pos =>
    candidateShape b region pid .cross
      [pos, ⟨pos.x, pos.y - 1⟩, ⟨pos.x, pos.y + 1⟩, ⟨pos.x - 1, pos.y⟩,
        ⟨pos.x + 1, pos.y⟩] 5)
  blocks ++ lshapes ++ crosses

/-- The fortress base-bonus table (`bonusMap[...] || 0`). -/
def bonusMapScore (m : Int) : Int :=
  if m = 2 then 2 else if m = 3 then 4 else if m = 4 then 6 else if m = 5 then 8 else 0

/-- Stable insertion for the descending sort of
`shapes.sort((a, b) => b.minStability - a.minStability)` (a stable sort, as
`Array.prototype.sort` is): an element goes before the first strictly-smaller
or equal key that originally came later, i.e. before the first key `≤` its
own. -/
def insertShapeDesc (a : FortressShape) : List FortressShape → List FortressShape
  | [] => [a]
  | b :: rest =>
      if b.minStability ≤ a.minStability then a :: b :: rest
      else b :: insertShapeDesc a rest

/-- Stable descending sort by `minStability`. -/
def sortShapesDesc : List FortressShape → List FortressShape
  | [] => []
  | a :: rest => insertShapeDesc a (sortShapesDesc rest)

/-- `Scoring.calculateFortressBonus`: per region, sort the detected shapes by
min stability descending (stable), add the first in full and each further
shape at half (integer division). -/
def calculateFortressBonus (b : Board) (pid : PlayerId) : Int :=
  (getConnectedRegions b pid).foldl
    (fun total region =>
      let shapes := detectFortressShapes b region.positions pid
      if shapes.length = 0 then total
      else
        let sorted := sortShapesDesc shapes
        match sorted with
        | [] => total
        | s0 :: restShapes =>
            total + bonusMapScore s0.minStability +
              restShapes.foldl (fun acc sh => acc + bonusMapScore sh.minStability / 2) 0)
    0

/-!
## The range invariant through every mutation (claim C2 groundwork)

Every board mutation of the engine goes through the clipped cell mutators, so
a board whose stabilities all lie in `[-5, 5]` keeps that property.
-/

theorem inv_foldl_addStabilityAt {α : Type} {b : Board} (hb : b.Inv) (l : List α)
    (fx fy : α → Int) (fd : α → Int) :
    (l.foldl (fun b a => b.addStabilityAt (fx a) (fy a) (fd a)) b).Inv := by
  induction l generalizing b with
  | nil => exact hb
  | cons a rest ih => exact ih (hb.addStabilityAt (fx a) (fy a) (fd a))

theorem inv_famApply {b : Board} (hb : b.Inv) (tgts : List Pos) (d : Int) :
    (famApply tgts d b).Inv :=
  inv_foldl_addStabilityAt hb tgts _ _ _

theorem inv_simultaneousCore {b : Board} (hb : b.Inv) (tA tB : List Pos) (dA dB : Int) :
    (applyColorCardsSimultaneouslyCore b tA dA tB dB).Inv :=
  inv_applyChanges hb _

theorem inv_S03apply {b : Board} (hb : b.Inv) (p : Pos) (pid : PlayerId) :
    (S03apply b p pid).Inv := by
  unfold S03apply
  exact inv_foldl_addStabilityAt (hb.setStabilityAt _ _ _) _ _ _ _

theorem inv_S10hit {b : Board} (hb : b.Inv) (p : Pos) (pid : PlayerId) :
    (S10hit b p pid).Inv :=
  (hb.setStabilityAt _ _ _).addStabilityAt _ _ _

theorem inv_S10miss {b : Board} (hb : b.Inv) (p : Pos) (pid : PlayerId) :
    (S10miss b p pid).Inv := by
  unfold S10miss
  repeat' split
  all_goals
    first
      | exact hb.addStabilityAt _ _ _
      | exact hb

theorem inv_S10apply {b : Board} (hb : b.Inv) (p : Pos) (pid : PlayerId) (o : OptionsM) :
    (S10apply b p pid o).Inv := by
  unfold S10apply
  split
  · exact inv_S10hit hb p pid
  · exact inv_S10miss hb p pid

theorem inv_bombExplode {b : Board} (hb : b.Inv) (p : Pos) (pid : PlayerId) :
    (bombExplode b p pid).Inv := by
  unfold bombExplode
  generalize S07targetPositions b p = l
  induction l generalizing b with
  | nil => exact hb
  | cons q rest ih =>
    rw [List.foldl_cons]
    refine ih ?_
    split
    · split
      · exact hb.addStabilityAt _ _ _
      · split
        · exact hb.addStabilityAt _ _ _
        · exact hb
    · exact hb

theorem inv_applyPenaltyBoard {b : Board} (hb : b.Inv) (shuffle : List Pos → List Pos)
    (pid : PlayerId) (count : Nat) :
    (applyPenaltyBoard shuffle b pid count).Inv := by
  unfold applyPenaltyBoard
  exact inv_foldl_addStabilityAt hb _ _ _ _

/-- A card whose polymorphic effect preserves the range invariant.  Every
card class in the source mutates only through the clipped cell operations, so
each embedded card instance is proved `GoodCard` below. -/
def GoodCard (c : CardM) : Prop :=
  ∀ (b : Board) (p : Pos) (pid : PlayerId) (o : OptionsM),
    b.Inv → (c.applyEffect b p pid o).Inv

theorem goodCard_mkColorCard (id : CardId) (power : Int) (cp : Board → Pos → PlayerId → OptionsM → Bool)
    (tg : Board → Pos → PlayerId → OptionsM → List Pos) :
    GoodCard (mkColorCard id power cp tg) := by
  intro b p pid o hb
  exact inv_famApply hb _ _

theorem goodCard_mkFortCard (id : CardId) (power : Int) (cp : Board → Pos → PlayerId → OptionsM → Bool)
    (tg : Board → Pos → PlayerId → OptionsM → List Pos) :
    GoodCard (mkFortCard id power cp tg) := by
  intro b p pid o hb
  exact inv_famApply hb _ _

theorem goodCard_C01M : GoodCard C01M := goodCard_mkColorCard _ _ _ _
theorem goodCard_C06M : GoodCard C06M := goodCard_mkColorCard _ _ _ _
theorem goodCard_F01M : GoodCard F01M := goodCard_mkFortCard _ _ _ _

theorem goodCard_S03M : GoodCard S03M := fun _ _ _ _ hb => inv_S03apply hb _ _
theorem goodCard_S04M : GoodCard S04M := fun _ _ _ _ hb => hb
theorem goodCard_S05M : GoodCard S05M := fun _ _ _ _ hb => hb
theorem goodCard_S07M : GoodCard S07M := fun _ _ _ _ hb => hb
theorem goodCard_S10M : GoodCard S10M := fun _ _ _ _ hb => inv_S10apply hb _ _ _

/-- Both hands hold only invariant-preserving cards. -/
def GoodHands (g : GState) : Prop :=
  (∀ c ∈ g.handA, GoodCard c) ∧ (∀ c ∈ g.handB, GoodCard c)

theorem goodHands_hand {g : GState} (h : GoodHands g) (pid : PlayerId) :
    ∀ c ∈ g.hand pid, GoodCard c := by
  cases pid
  · exact h.1
  · exact h.2

theorem useCard_board (g : GState) (pid : PlayerId) (cid : CardId) :
    (g.useCard pid cid).2.board = g.board := by
  unfold GState.useCard
  split
  · rfl
  · split
    · rfl
    · cases pid <;> rfl

theorem useCard_hands (g : GState) (pid : PlayerId) (cid : CardId) :
    (g.useCard pid cid).2.handA = g.handA ∧ (g.useCard pid cid).2.handB = g.handB := by
  unfold GState.useCard
  split
  · exact ⟨rfl, rfl⟩
  · split
    · exact ⟨rfl, rfl⟩
    · cases pid <;> exact ⟨rfl, rfl⟩

theorem useCard_mem {g : GState} {pid : PlayerId} {cid : CardId} {card : CardM}
    (h : (g.useCard pid cid).1 = some card) : card ∈ g.hand pid := by
  unfold GState.useCard at h
  cases hfind : (g.hand pid).find? (fun c => c.id == cid) with
  | none => simp [hfind] at h
  | some c =>
      by_cases hused : cid ∈ g.used pid
      · simp [hfind, hused] at h
      · simp [hfind, hused] at h
        exact h ▸ List.mem_of_find?_eq_some hfind

/-!
## Engine-level preservation: hands untouched, range invariant kept (C2)
-/

/-- Engine transitions tracked by the invariant proof: the board stays inside
the range invariant and the hands (the card lists) are untouched. -/
def StepOK (g g' : GState) : Prop :=
  (g.board.Inv → g'.board.Inv) ∧ g'.handA = g.handA ∧ g'.handB = g.handB

theorem StepOK.refl (g : GState) : StepOK g g := ⟨fun hb => hb, rfl, rfl⟩

theorem StepOK.trans {g g' g'' : GState} (h₁ : StepOK g g') (h₂ : StepOK g' g'') :
    StepOK g g'' :=
  ⟨fun hb => h₂.1 (h₁.1 hb), h₂.2.1.trans h₁.2.1, h₂.2.2.trans h₁.2.2⟩

theorem goodHands_of_stepOK {g g' : GState} (hh : GoodHands g) (hs : StepOK g g') :
    GoodHands g' := by
  constructor
  · rw [hs.2.1]; exact hh.1
  · rw [hs.2.2]; exact hh.2

theorem stepOK_setSel (g : GState) (pid : PlayerId) (v : Option Selection) :
    StepOK g (g.setSel pid v) := by
  cases pid <;> exact ⟨fun hb => hb, rfl, rfl⟩

theorem stepOK_setSkip (g : GState) (pid : PlayerId) (v : Bool) :
    StepOK g (g.setSkip pid v) := by
  cases pid <;> exact ⟨fun hb => hb, rfl, rfl⟩

theorem stepOK_setDaActive (g : GState) (pid : PlayerId) (v : Bool) :
    StepOK g (g.setDaActive pid v) := by
  cases pid <;> exact ⟨fun hb => hb, rfl, rfl⟩

theorem stepOK_setDaRemaining (g : GState) (pid : PlayerId) (v : Int) :
    StepOK g (g.setDaRemaining pid v) := by
  cases pid <;> exact ⟨fun hb => hb, rfl, rfl⟩

theorem stepOK_setDaFirst (g : GState) (pid : PlayerId) (v : Option Selection) :
    StepOK g (g.setDaFirst pid v) := by
  cases pid <;> exact ⟨fun hb => hb, rfl, rfl⟩

theorem stepOK_setLastColor (g : GState) (pid : PlayerId) (v : Option CardM) :
    StepOK g (g.setLastColor pid v) := by
  cases pid <;> exact ⟨fun hb => hb, rfl, rfl⟩

theorem stepOK_useCard (g : GState) (pid : PlayerId) (cid : CardId) :
    StepOK g (g.useCard pid cid).2 := by
  refine ⟨fun hb => ?_, (useCard_hands g pid cid).1, (useCard_hands g pid cid).2⟩
  rw [useCard_board]
  exact hb

theorem stepOK_applyColorCard {card : CardM} (hg : GoodCard card) (g : GState)
    (s : Selection) (pid : PlayerId) :
    StepOK g (applyColorCard g card s pid) := by
  unfold applyColorCard
  cases pid <;> exact ⟨fun hb => hg _ _ _ _ hb, rfl, rfl⟩

theorem stepOK_applyFortCard {card : CardM} (hg : GoodCard card) (g : GState)
    (s : Selection) (pid : PlayerId) :
    StepOK g (applyFortCard g card s pid) :=
  ⟨fun hb => hg _ _ _ _ hb, rfl, rfl⟩

theorem stepOK_applyIfColor {card : CardM} (hg : GoodCard card) (g : GState)
    (s : Selection) (pid : PlayerId) :
    StepOK g (applyIfColor g card s pid) := by
  unfold applyIfColor
  split
  · exact stepOK_applyColorCard hg g s pid
  · exact StepOK.refl g

theorem stepOK_applyIfFort {card : CardM} (hg : GoodCard card) (g : GState)
    (s : Selection) (pid : PlayerId) :
    StepOK g (applyIfFort g card s pid) := by
  unfold applyIfFort
  split
  · exact stepOK_applyFortCard hg g s pid
  · exact StepOK.refl g

theorem simultStep_board (g : GState) (prev : List (Pos × Int)) (c? : Option CardM)
    (s : Selection) (pid : PlayerId) (en : Bool) :
    (simultStep g prev c? s pid en).2.board = g.board := by
  unfold simultStep
  cases c? with
  | none => rfl
  | some c =>
      cases en
      · rfl
      · cases pid <;> rfl

theorem simultStep_hands (g : GState) (prev : List (Pos × Int)) (c? : Option CardM)
    (s : Selection) (pid : PlayerId) (en : Bool) :
    (simultStep g prev c? s pid en).2.handA = g.handA ∧
      (simultStep g prev c? s pid en).2.handB = g.handB := by
  unfold simultStep
  cases c? with
  | none => exact ⟨rfl, rfl⟩
  | some c =>
      cases en
      · exact ⟨rfl, rfl⟩
      · cases pid <;> exact ⟨rfl, rfl⟩

theorem stepOK_simultG (g : GState) (cA : Option CardM) (sA : Selection) (pA : PlayerId)
    (eA : Bool) (cB : Option CardM) (sB : Selection) (pB : PlayerId) (eB : Bool) :
    StepOK g (applyColorCardsSimultaneouslyG g cA sA pA eA cB sB pB eB) := by
  unfold applyColorCardsSimultaneouslyG
  refine ⟨fun hb => ?_, ?_, ?_⟩
  · show (applyChanges _ _).Inv
    apply inv_applyChanges
    rw [simultStep_board, simultStep_board]
    exact hb
  · show (simultStep _ _ _ _ _ _).2.handA = g.handA
    rw [(simultStep_hands ..).1, (simultStep_hands ..).1]
  · show (simultStep _ _ _ _ _ _).2.handB = g.handB
    rw [(simultStep_hands ..).2, (simultStep_hands ..).2]

theorem stepOK_applyPenalty (o : Oracle) (g : GState) (pid : PlayerId) (count : Nat) :
    StepOK g (applyPenalty o g pid count) :=
  ⟨fun hb => inv_applyPenaltyBoard hb _ _ _, rfl, rfl⟩

theorem inv_foldl_bombExplode {b : Board} (hb : b.Inv) (l : List TimeBombEntry) :
    (l.foldl (fun b e => bombExplode b e.position e.playerId) b).Inv := by
  induction l generalizing b with
  | nil => exact hb
  | cons e rest ih =>
      rw [List.foldl_cons]
      exact ih (inv_bombExplode hb _ _)

theorem stepOK_checkTimeBombs (g : GState) : StepOK g (checkTimeBombs g) := by
  unfold checkTimeBombs
  split
  · exact StepOK.refl g
  · exact ⟨fun hb => inv_foldl_bombExplode hb _, rfl, rfl⟩

theorem stepOK_endTurn (g : GState) : StepOK g (endTurn g) :=
  ⟨fun hb => hb, rfl, rfl⟩

theorem stepOK_S06steal (o : Oracle) (g : GState) (tg : List Pos) (pid : PlayerId) :
    StepOK g (S06steal o g tg pid) := by
  unfold S06steal
  split
  · exact ⟨fun hb => hb.addStabilityAt _ _ _, rfl, rfl⟩
  · exact StepOK.refl g

theorem stepOK_S06replay (g : GState) (oc : CardM) (p : Pos) (pid : PlayerId) :
    StepOK g (S06replay g oc p pid) :=
  ⟨fun hb => inv_famApply hb _ _, rfl, rfl⟩

theorem stepOK_S06applyG (o : Oracle) (g : GState) (oc : CardM) (p : Pos)
    (pid : PlayerId) (osel : Selection) :
    StepOK g (S06applyG o g oc p pid osel) :=
  (stepOK_S06steal o g _ pid).trans (stepOK_S06replay _ oc p pid)

theorem stepOK_S04applyG (g : GState) (p : Pos) (pid : PlayerId) :
    StepOK g (S04applyG g p pid) := by
  unfold S04applyG
  split
  · exact ⟨fun hb => hb.addStabilityAt _ _ _, rfl, rfl⟩
  · exact (stepOK_setDaActive g pid true).trans (stepOK_setDaRemaining _ pid 2)

theorem stepOK_applySpecialCard {card : CardM} (hg : GoodCard card) (o : Oracle)
    (g : GState) (p : Pos) (pid : PlayerId) (oc : Option CardM) (osel : Option Selection) :
    StepOK g (applySpecialCard o g card p pid oc osel) := by
  unfold applySpecialCard
  split
  · cases oc with
    | none => exact StepOK.refl g
    | some c =>
        show StepOK g (if c.kind = CardKind.special then g else applyPenalty o g pid 3)
        split
        · exact StepOK.refl g
        · exact stepOK_applyPenalty o g pid 3
  · split
    · cases oc with
      | none => exact StepOK.refl g
      | some c =>
          cases osel with
          | none => exact StepOK.refl g
          | some os =>
              show StepOK g
                (if c.kind = CardKind.color then S06applyG o g c p pid os
                else applyPenalty o g pid 3)
              split
              · exact stepOK_S06applyG ..
              · exact stepOK_applyPenalty o g pid 3
    · split
      · exact ⟨fun hb => hb, rfl, rfl⟩
      · split
        · exact stepOK_S04applyG g p pid
        · exact ⟨fun hb => hg _ _ _ _ hb, rfl, rfl⟩

theorem stepOK_applyIfSpecialSolo {card : CardM} (hg : GoodCard card) (o : Oracle)
    (g : GState) (s : Selection) (pid : PlayerId) :
    StepOK g (applyIfSpecialSolo o g card s pid) := by
  unfold applyIfSpecialSolo
  split
  · exact stepOK_applySpecialCard hg ..
  · exact StepOK.refl g

/-- StepOK transported through the two `DAOutcome` constructors. -/
def DAOutcomeOK (g : GState) : DAOutcome → Prop
  | .early g1 => StepOK g g1
  | .go g1 _ => StepOK g g1

theorem daFirstPlay_ok {g : GState} (hh : GoodHands g) (pid : PlayerId) (s : Selection) :
    DAOutcomeOK g (daFirstPlay g pid s) := by
  unfold daFirstPlay
  rcases hu : g.useCard pid s.cardId with ⟨c?, g1⟩
  cases c? with
  | none => exact ⟨fun hb => hb, rfl, rfl⟩
  | some card =>
      have hmem : card ∈ g.hand pid := useCard_mem (by rw [hu])
      have hcard : GoodCard card := goodHands_hand hh pid card hmem
      have hstep : StepOK g g1 := by
        have := stepOK_useCard g pid s.cardId
        rw [hu] at this
        exact this
      show StepOK g _
      exact (hstep.trans ((stepOK_applyIfColor hcard g1 s pid).trans
        (((stepOK_setDaFirst _ pid (some s)).trans
          (stepOK_setDaRemaining _ pid _)).trans (stepOK_setSel _ pid none)))).trans
        ⟨fun hb => hb, rfl, rfl⟩

theorem daSecondPlay_ok {g : GState} (hh : GoodHands g) (pid : PlayerId) (s : Selection) :
    DAOutcomeOK g (daSecondPlay g pid s) := by
  unfold daSecondPlay
  rcases hu : g.useCard pid s.cardId with ⟨c?, g1⟩
  cases c? with
  | none => exact ⟨fun hb => hb, rfl, rfl⟩
  | some card =>
      have hmem : card ∈ g.hand pid := useCard_mem (by rw [hu])
      have hcard : GoodCard card := goodHands_hand hh pid card hmem
      have hstep : StepOK g g1 := by
        have := stepOK_useCard g pid s.cardId
        rw [hu] at this
        exact this
      show StepOK g _
      exact hstep.trans ((stepOK_applyIfColor hcard g1 s pid).trans
        (((stepOK_setDaActive _ pid false).trans
          (stepOK_setDaRemaining _ pid 0)).trans
          ((stepOK_setSkip _ pid true).trans (stepOK_setDaFirst _ pid none))))

theorem daPhase_ok {g : GState} (hh : GoodHands g) (pid : PlayerId)
    (s? : Option Selection) (skip : Bool) :
    DAOutcomeOK g (daPhase g pid s? skip) := by
  unfold daPhase
  split
  · cases s? with
    | none => exact StepOK.refl g
    | some s =>
        show DAOutcomeOK g
          (if g.daRemaining pid > 1 then daFirstPlay g pid s
          else if g.daRemaining pid = 1 then daSecondPlay g pid s
          else DAOutcome.go g false)
        split
        · exact daFirstPlay_ok hh pid s
        · split
          · exact daSecondPlay_ok hh pid s
          · exact StepOK.refl g
  · exact StepOK.refl g

theorem soloPhase_ok {g : GState} (hh : GoodHands g) (o : Oracle) (pid : PlayerId)
    (s? : Option Selection) :
    StepOK g (soloPhase o g pid s?) := by
  cases s? with
  | none => exact ⟨fun hb => hb, rfl, rfl⟩
  | some s =>
    show StepOK g (match g.useCard pid s.cardId with
      | (none, _) => { g with phase := GPhase.selecting }
      | (some card, g1) => endTurn (checkTimeBombs (applyIfSpecialSolo o
          (applyIfFort (applyIfColor g1 card s pid) card s pid) card s pid)))
    rcases hu : g.useCard pid s.cardId with ⟨c?, g1⟩
    cases c? with
    | none => exact ⟨fun hb => hb, rfl, rfl⟩
    | some card =>
        have hmem : card ∈ g.hand pid := useCard_mem (by rw [hu])
        have hcard : GoodCard card := goodHands_hand hh pid card hmem
        have hstep : StepOK g g1 := by
          have := stepOK_useCard g pid s.cardId
          rw [hu] at this
          exact this
        exact hstep.trans (((((stepOK_applyIfColor hcard g1 s pid).trans
          (stepOK_applyIfFort hcard _ s pid)).trans
          (stepOK_applyIfSpecialSolo hcard o _ s pid)).trans
          (stepOK_checkTimeBombs _)).trans (stepOK_endTurn _))

theorem stepOK_colorPhase (g : GState) (cardA cardB : CardM) (sA sB : Selection) :
    StepOK g (colorPhase g cardA cardB sA sB) := by
  unfold colorPhase
  repeat' split
  all_goals
    first
      | exact stepOK_simultG ..
      | exact StepOK.refl g

theorem stepOK_specialSeqA {cardA : CardM} (hgA : GoodCard cardA) (o : Oracle)
    (g : GState) (cardB : CardM) (sA sB : Selection) :
    StepOK g (specialSeqA o g cardA cardB sA sB) := by
  unfold specialSeqA
  split
  · exact stepOK_applySpecialCard hgA ..
  · exact StepOK.refl g

theorem stepOK_specialSeqB {cardB : CardM} (hgB : GoodCard cardB) (o : Oracle)
    (g : GState) (cardA : CardM) (sA sB : Selection) :
    StepOK g (specialSeqB o g cardA cardB sA sB) := by
  unfold specialSeqB
  split
  · exact stepOK_applySpecialCard hgB ..
  · exact StepOK.refl g

theorem stepOK_specialPhase {cardA cardB : CardM} (hgA : GoodCard cardA)
    (hgB : GoodCard cardB) (o : Oracle) (g : GState) (sA sB : Selection) :
    StepOK g (specialPhase o g cardA cardB sA sB) := by
  unfold specialPhase
  split
  · exact (stepOK_applyPenalty o g .A 3).trans (stepOK_applyPenalty ..)
  · split
    · exact stepOK_applySpecialCard hgA ..
    · split
      · exact stepOK_applySpecialCard hgB ..
      · exact (stepOK_specialSeqA hgA ..).trans (stepOK_specialSeqB hgB ..)

theorem afterUse_ok {cardA cardB : CardM} (hgA : GoodCard cardA) (hgB : GoodCard cardB)
    (o : Oracle) (gU : GState) (sA sB : Selection) :
    StepOK gU (afterUse o gU cardA cardB sA sB) := by
  unfold afterUse
  exact ((((stepOK_colorPhase gU cardA cardB sA sB).trans
    (stepOK_applyIfFort hgA _ sA .A)).trans
    (stepOK_applyIfFort hgB _ sB .B)).trans
    (stepOK_specialPhase hgA hgB o _ sA sB)).trans
    ((stepOK_checkTimeBombs _).trans (stepOK_endTurn _))

theorem normalPhase_ok {g2 : GState} (hh : GoodHands g2) (o : Oracle)
    (sA sB : Selection) :
    StepOK g2 (normalPhase o g2 sA sB) := by
  have hstepA : StepOK g2 (g2.useCard .A sA.cardId).2 := stepOK_useCard g2 .A sA.cardId
  have hstepB : StepOK (g2.useCard .A sA.cardId).2
      ((g2.useCard .A sA.cardId).2.useCard .B sB.cardId).2 :=
    stepOK_useCard (g2.useCard .A sA.cardId).2 .B sB.cardId
  have hhA : GoodHands (g2.useCard .A sA.cardId).2 := goodHands_of_stepOK hh hstepA
  show StepOK g2
    (match (g2.useCard .A sA.cardId).1,
        ((g2.useCard .A sA.cardId).2.useCard .B sB.cardId).1 with
    | some cardA, some cardB =>
        afterUse o ((g2.useCard .A sA.cardId).2.useCard .B sB.cardId).2 cardA cardB sA sB
    | _, _ =>
        { ((g2.useCard .A sA.cardId).2.useCard .B sB.cardId).2 with
            phase := GPhase.selecting })
  cases hA : (g2.useCard .A sA.cardId).1 with
  | none =>
      cases hB : ((g2.useCard .A sA.cardId).2.useCard .B sB.cardId).1 with
      | none => exact (hstepA.trans hstepB).trans ⟨fun hb => hb, rfl, rfl⟩
      | some cardB => exact (hstepA.trans hstepB).trans ⟨fun hb => hb, rfl, rfl⟩
  | some cardA =>
      cases hB : ((g2.useCard .A sA.cardId).2.useCard .B sB.cardId).1 with
      | none => exact (hstepA.trans hstepB).trans ⟨fun hb => hb, rfl, rfl⟩
      | some cardB =>
          have hgA : GoodCard cardA := goodHands_hand hh .A cardA (useCard_mem hA)
          have hgB : GoodCard cardB := goodHands_hand hhA .B cardB (useCard_mem hB)
          exact (hstepA.trans hstepB).trans (afterUse_ok hgA hgB o _ sA sB)

/-- The core pipeline preserves the range invariant and the hands. -/
theorem resolveTurnCore_ok {g : GState} (hh : GoodHands g) (o : Oracle) :
    StepOK g (resolveTurnCore o g) := by
  unfold resolveTurnCore
  cases hda : daPhase g .A g.selA g.skipA with
  | early g1 =>
      have := daPhase_ok hh .A g.selA g.skipA
      rw [hda] at this
      exact this
  | go g1 completedA =>
      have hs1 : StepOK g g1 := by
        have := daPhase_ok hh .A g.selA g.skipA
        rw [hda] at this
        exact this
      have hh1 : GoodHands g1 := goodHands_of_stepOK hh hs1
      show StepOK g (match daPhase g1 .B g.selB g.skipB with
        | DAOutcome.early g2 => g2
        | DAOutcome.go g2 completedB =>
            if completedA || completedB then endTurn g2
            else if g.skipA && g.skipB then endTurn g2
            else if g.skipA then soloPhase o g2 .B g.selB
            else if g.skipB then soloPhase o g2 .A g.selA
            else
              match g.selA, g.selB with
              | some sA, some sB => normalPhase o g2 sA sB
              | _, _ => { g2 with phase := GPhase.selecting })
      cases hdb : daPhase g1 .B g.selB g.skipB with
      | early g2 =>
          have := daPhase_ok hh1 .B g.selB g.skipB
          rw [hdb] at this
          exact hs1.trans this
      | go g2 completedB =>
          have hs2 : StepOK g1 g2 := by
            have := daPhase_ok hh1 .B g.selB g.skipB
            rw [hdb] at this
            exact this
          have hh2 : GoodHands g2 := goodHands_of_stepOK hh1 hs2
          have hpre : StepOK g g2 := hs1.trans hs2
          show StepOK g
            (if completedA || completedB then endTurn g2
            else if g.skipA && g.skipB then endTurn g2
            else if g.skipA then soloPhase o g2 .B g.selB
            else if g.skipB then soloPhase o g2 .A g.selA
            else
              match g.selA, g.selB with
              | some sA, some sB => normalPhase o g2 sA sB
              | _, _ => { g2 with phase := GPhase.selecting })
          split
          · exact hpre.trans (stepOK_endTurn g2)
          · split
            · exact hpre.trans (stepOK_endTurn g2)
            · split
              · exact hpre.trans (soloPhase_ok hh2 o .B _)
              · split
                · exact hpre.trans (soloPhase_ok hh2 o .A _)
                · cases g.selA with
                  | none => exact hpre.trans ⟨fun hb => hb, rfl, rfl⟩
                  | some sA =>
                      cases g.selB with
                      | none => exact hpre.trans ⟨fun hb => hb, rfl, rfl⟩
                      | some sB => exact hpre.trans (normalPhase_ok hh2 o sA sB)

/-- A full `resolveTurn` never moves a stability out of range and never
touches the hands. -/
theorem resolveTurn_stepOK {g0 : GState} (hh : GoodHands g0) (o : Oracle) :
    StepOK g0 (resolveTurn o g0) := by
  unfold resolveTurn
  split
  · exact StepOK.refl g0
  · have hstep0 : StepOK g0 { g0 with phase := GPhase.resolving } :=
      ⟨fun hb => hb, rfl, rfl⟩
    exact hstep0.trans (resolveTurnCore_ok (goodHands_of_stepOK hh hstep0) o)

/-!
## Concrete scenario states

Deterministic states (empty owned sets keep every random penalty a no-op
under any oracle choice, and `idOracle` fixes the remaining choices).
-/

/-- A quiet 5×5 mid-game base state: empty board, empty hands, turn 1 of 15,
selection phase, nothing pending. -/
def baseG : GState :=
  { board := Board.make 5
    handA := []
    handB := []
    usedA := []
    usedB := []
    currentTurn := 1
    totalTurns := 15
    phase := .selecting
    selA := none
    selB := none
    timeBombs := []
    daActiveA := false
    daActiveB := false
    daRemainingA := 0
    daRemainingB := 0
    daFirstA := none
    daFirstB := none
    skipA := false
    skipB := false
    lastColorA := none
    lastColorB := none }

/-- Scenario for C3: A is mid double action with one remaining play and a
pending `C01` on `(4,4)`; B has an unplayed `C01` selected on `(0,0)`. -/
def gC3 : GState :=
  { baseG with
    handA := [C06M, C01M]
    handB := [C01M]
    usedA := [CardId.C 6]
    currentTurn := 5
    selA := some ⟨.C 1, ⟨4, 4⟩⟩
    selB := some ⟨.C 1, ⟨0, 0⟩⟩
    daActiveA := true
    daRemainingA := 1
    daFirstA := some ⟨.C 6, ⟨0, 0⟩⟩
    lastColorA := some C06M }

/-- Scenario for C4: A plays the jammer `S05`, B plays the color card `C01`
on `(0,0)`. -/
def gC4 : GState :=
  { baseG with
    handA := [S05M]
    handB := [C01M]
    selA := some ⟨.S 5, ⟨2, 2⟩⟩
    selB := some ⟨.C 1, ⟨0, 0⟩⟩ }

/-- Scenario for C5: the corner-only card `C06` is A's only card; `(1,1)` is
not a corner. -/
def gC5 : GState := { baseG with handA := [C06M], handB := [C01M] }

/-- The C5 scenario after both (accepted) selections. -/
def gC5r : GState :=
  (selectCard (selectCard gC5 .A ⟨.C 6, ⟨1, 1⟩⟩).2 .B ⟨.C 1, ⟨0, 0⟩⟩).2

/-- Scenario for C7: A installs the time bomb `S07` on `(2,2)` during the
final turn of a one-turn game. -/
def gC7 : GState :=
  { baseG with
    handA := [S07M]
    handB := [C01M]
    totalTurns := 1
    selA := some ⟨.S 7, ⟨2, 2⟩⟩
    selB := some ⟨.C 1, ⟨0, 0⟩⟩ }

/-- Scenario for C8: A plays the target lock `S10` guessing `(0,0)`, B plays
the color card `C01` exactly on `(0,0)`. -/
def gC8 : GState :=
  { baseG with
    handA := [S10M]
    handB := [C01M]
    selA := some ⟨.S 10, ⟨0, 0⟩⟩
    selB := some ⟨.C 1, ⟨0, 0⟩⟩ }

/-- Board for C1: the single cell `(0,0)` is at `+1` (owned by A). -/
def bC1 : Board := ⟨5, [[1,0,0,0,0],[0,0,0,0,0],[0,0,0,0,0],[0,0,0,0,0],[0,0,0,0,0]]⟩

/-- Scenario for C1: A plays the own-cell boost `F01` on `(0,0)` while B
plays the color card `C01` on the same cell. -/
def gC1 : GState :=
  { baseG with
    board := bC1
    handA := [F01M]
    handB := [C01M]
    selA := some ⟨.F 1, ⟨0, 0⟩⟩
    selB := some ⟨.C 1, ⟨0, 0⟩⟩ }

/-- Board for the spec example of C1: one cell at `+4`. -/
def b4ex : Board := (Board.make 5).setStabilityAt 0 0 4

/-- Board for C6: a 2×2 block of `+3` at the top left, connected through two
`+1` cells to a cross of `+2` centered at `(3,3)` — one region of A. -/
def bC6 : Board := ⟨5, [[3,3,0,0,0],[3,3,0,0,0],[0,1,0,2,0],[0,1,2,2,2],[0,0,0,2,0]]⟩

/-- `resolveTurn` is a guard-protected no-op outside the selection phase. -/
theorem resolveTurn_of_not_selecting {g : GState} (h : g.phase ≠ GPhase.selecting)
    (o : Oracle) : resolveTurn o g = g := by
  unfold resolveTurn
  rw [if_pos]
  simp [h]

/-- C3: resolving the second-multi-action round `gC3` consumes and applies
A's pending second card (`usedA` gains `C01`, `(4,4)` gains `+1`), clears A's
multi-action and sets A's skip flag — but B, although not skipping and with a
pending `C01` on the empty `(0,0)`, has that card neither consumed (`usedB`
stays empty) nor applied (`(0,0)` stays `0`): the double-action completion
ends the turn before the opponent's part of the pipeline, contrary to the
claim. -/
theorem C3_second_card_round :
    gC3.selB = some ⟨.C 1, ⟨0, 0⟩⟩ ∧ gC3.skipB = false ∧
    (resolveTurn idOracle gC3).usedA = [.C 6, .C 1] ∧
    (resolveTurn idOracle gC3).board.getCell 4 4 = some 1 ∧
    (resolveTurn idOracle gC3).daActiveA = false ∧
    (resolveTurn idOracle gC3).skipA = true ∧
    (resolveTurn idOracle gC3).currentTurn = 6 ∧
    (resolveTurn idOracle gC3).usedB = [] ∧
    (resolveTurn idOracle gC3).board.getCell 0 0 = some 0 := by
  decide

/-- C4: in `gC4` exactly one player (A) plays the jammer `S05` and the
opponent's revealed card `C01` is not special, so by the claim A suffers
the self-penalty (a no-op here, as A owns no cells) and B's Area effect
should be applied unchanged — but B's `C01` on `(0,0)`, whose affected set
is exactly `[(0,0)]`, leaves the board untouched: the jammer also disables
the opponent's color contribution via the enable flags. -/
theorem C4_jammer_vs_color :
    gC4.selA = some ⟨.S 5, ⟨2, 2⟩⟩ ∧ gC4.selB = some ⟨.C 1, ⟨0, 0⟩⟩ ∧
    S05M.kind = .special ∧ C01M.kind = .color ∧
    C01M.targets gC4.board ⟨0, 0⟩ .B (getCardOptions gC4 C01M .B) = [⟨0, 0⟩] ∧
    (resolveTurn idOracle gC4).usedA = [.S 5] ∧
    (resolveTurn idOracle gC4).usedB = [.C 1] ∧
    (resolveTurn idOracle gC4).board = baseG.board ∧
    (resolveTurn idOracle gC4).board.getCell 0 0 = some 0 := by
  decide

/-- C5: in `gC5` the corner-only `C06` is A's sole remaining card and
`canPlay` fails on the non-corner `(1,1)`; `selectCard` still accepts the
selection as a misfire — but resolving the round applies the card's effect
anyway: `(1,1)` moves from `0` to `+1` (the effect routine never re-checks
`canPlay`), contradicting the zero-board-effect part of the claim. -/
theorem C5_misfire_changes_board :
    (gC5.getHand .A).length = 1 ∧
    C06M.canPlay gC5.board ⟨1, 1⟩ .A (getCardOptions gC5 C06M .A) = false ∧
    (selectCard gC5 .A ⟨.C 6, ⟨1, 1⟩⟩).1 = true ∧
    gC5.board.getCell 1 1 = some 0 ∧
    (resolveTurn idOracle gC5r).usedA = [.C 6] ∧
    (resolveTurn idOracle gC5r).board.getCell 1 1 = some 1 := by
  decide

/-- C8: in `gC8` A plays the target lock `S10` on `(0,0)` and B's Area card
`C01` affects exactly `[(0,0)]`, so the claim's reward branch (which would
pin the locked cell at A's cap, `+5`) should fire — but `getCardOptions`
never populates `opponentTargetPositions` (the `S10` branch of the source is
empty), so the penalty branch runs instead and the cell ends at `0`. -/
theorem C8_target_lock_never_rewards :
    gC8.selA = some ⟨.S 10, ⟨0, 0⟩⟩ ∧ gC8.selB = some ⟨.C 1, ⟨0, 0⟩⟩ ∧
    (⟨0, 0⟩ : Pos) ∈ C01M.targets gC8.board ⟨0, 0⟩ .B (getCardOptions gC8 C01M .B) ∧
    (getCardOptions gC8 S10M .A).opponentTargetPositions = none ∧
    (S10hit gC8.board ⟨0, 0⟩ .A).getCell 0 0 = some 5 ∧
    (resolveTurn idOracle gC8).usedA = [.S 10] ∧
    (resolveTurn idOracle gC8).usedB = [.C 1] ∧
    (resolveTurn idOracle gC8).board.getCell 0 0 = some 0 := by
  decide

/-- C6 counterexample: on `bC6` player A has exactly one connected region
containing a 2×2 block of minimum magnitude exactly 3 and a cross of minimum
magnitude exactly 2, yet `calculateFortressBonus` returns 16, not the
claimed 5: the detector also finds every L-shape inside the block (four of
minimum 3) and around the cross (three of minimum 2), and only the single
largest shape escapes halving. -/
theorem C6_fortress_counterexample :
    (getConnectedRegions bC6 .A).length = 1 ∧
    (getConnectedRegions bC6 .A).map (fun r =>
      (detectFortressShapes bC6 r.positions .A).map
        (fun sh => (sh.pattern, sh.minStability))) =
      [[(.block2x2, 3), (.lshape, 3), (.lshape, 3), (.lshape, 3), (.lshape, 3),
        (.lshape, 2), (.lshape, 2), (.lshape, 2), (.cross, 2)]] ∧
    calculateFortressBonus bC6 .A = 16 ∧ calculateFortressBonus bC6 .A ≠ 5 := by
  decide

/-- C6: on the one-region board `bC6` (2×2 block with minimum owned-cell
magnitude exactly 3, cross with minimum magnitude exactly 2) the detector
finds nine shapes — the block, four L-shapes of minimum 3 inside it, three
L-shapes of minimum 2 around the cross, and the cross — and the stable
descending sort puts a minimum-3 shape first, so the total is its full bonus
4 plus the halves 2+2+2+2 and 1+1+1+1: `calculateFortressBonus` returns 16
(not 5; the claimed value ignores the overlapping L-shapes). -/
theorem C6_fortress_bonus_total :
    (getConnectedRegions bC6 .A).map (fun r =>
      (sortShapesDesc (detectFortressShapes bC6 r.positions .A)).map
        (fun sh => bonusMapScore sh.minStability)) = [[4, 4, 4, 4, 4, 2, 2, 2, 2]] ∧
    calculateFortressBonus bC6 .A = 4 + (4 / 2 + 4 / 2 + 4 / 2 + 4 / 2 +
      2 / 2 + 2 / 2 + 2 / 2 + 2 / 2) ∧
    calculateFortressBonus bC6 .A = 16 := by
  decide

/-- C1 counterexample: in round `gC1` neither player is skipping or mid
multi-action, A reveals the Boost (fort) card `F01` on the A-owned `(0,0)`
(at `+1`) and B the Area card `C01` on the same cell, yet the engine result
(`0`) differs from the sum-first result (`+2` = clip(1 + 2 - 1)): fort cards
are applied sequentially on the mutated board, outside the accumulation, so
the claim fails as soon as a Boost card is involved.  The claim worked
example is also wrong for pure Area cards: a cell at `+4` receiving `+3` and
`-1` ends at the clipped `+5`, not at `+3`. -/
theorem C1_counterexample :
    (gC1.skipA = false ∧ gC1.skipB = false ∧ gC1.daActiveA = false ∧
      gC1.daActiveB = false) ∧
    F01M.kind = .fort ∧ C01M.kind = .color ∧
    gC1.board.getCell 0 0 = some 1 ∧
    (resolveTurn idOracle gC1).board.getCell 0 0 = some 0 ∧
    (applyColorCardsSimultaneouslyCore gC1.board
        (F01M.targets gC1.board ⟨0, 0⟩ .A (getCardOptions gC1 F01M .A))
        (famDelta F01M.power .A)
        (C01M.targets gC1.board ⟨0, 0⟩ .B (getCardOptions gC1 C01M .B))
        (famDelta C01M.power .B)).getCell 0 0 = some 2 ∧
    b4ex.getCell 0 0 = some 4 ∧
    (applyColorCardsSimultaneouslyCore b4ex [⟨0, 0⟩] 3 [⟨0, 0⟩] (-1)).getCell 0 0 =
      some 5 := by
  decide

/-- C1: for Area (color) cards the accumulation is sum-first and
order-independent — pointwise, a cell targeted by either enabled card
receives in one add-and-clip the sum of both players' per-occurrence deltas
and every other cell is untouched, and swapping which player is accumulated
first gives the same board.  (Boost/fort cards are outside the accumulation:
see the counterexample.) -/
theorem C1_sum_first_order_independent (b : Board) (hwf : b.WF)
    (tA tB : List Pos) (dA dB : Int) (x y : Int) :
    ((applyColorCardsSimultaneouslyCore b tA dA tB dB).getCell x y =
      if (⟨x, y⟩ : Pos) ∈ tA ∨ (⟨x, y⟩ : Pos) ∈ tB then
        (b.getCell x y).map
          (fun s => clip (s + (dA * tA.count ⟨x, y⟩ + dB * tB.count ⟨x, y⟩)))
      else b.getCell x y) ∧
    applyColorCardsSimultaneouslyCore b tA dA tB dB =
      applyColorCardsSimultaneouslyCore b tB dB tA dA :=
  ⟨simultaneousCore_getCell b tA tB dA dB x y, simultaneousCore_comm hwf tA tB dA dB⟩

/-- Witness for C1 at `b4ex`, the spec worked example: `+3` from A and `-1`
from B on the cell at `+4` give the clipped `+5`, in either accumulation
order. -/
theorem C1_sum_first_witness :
    (applyColorCardsSimultaneouslyCore b4ex [⟨0, 0⟩] 3 [⟨0, 0⟩] (-1)).getCell 0 0 =
      (b4ex.getCell 0 0).map (fun s => clip (s + (3 * 1 + -1 * 1))) ∧
    applyColorCardsSimultaneouslyCore b4ex [⟨0, 0⟩] 3 [⟨0, 0⟩] (-1) =
      applyColorCardsSimultaneouslyCore b4ex [⟨0, 0⟩] (-1) [⟨0, 0⟩] 3 := by
  have h := C1_sum_first_order_independent b4ex (by decide) [⟨0, 0⟩] [⟨0, 0⟩] 3 (-1) 0 0
  refine ⟨?_, h.2⟩
  rw [h.1]
  decide

/-- C7 counterexample: in `gC7` the bomb is installed on `(2,2)` during the
resolution of turn 1 of a one-turn game: the entry is registered with
`explosionTurn = 3` and no board mutation, but the game is then finished, a
further `resolveTurn` is a no-op, and the pending bomb never detonates —
refuting the claim that it detonates exactly once at or after turn `T+2`. -/
theorem C7_counterexample :
    ((resolveTurn idOracle gC7).phase = .finished ∧
      (resolveTurn idOracle gC7).timeBombs = [⟨⟨2, 2⟩, .A, 1, 3⟩] ∧
      (resolveTurn idOracle gC7).board.getCell 2 2 = some 0) ∧
    resolveTurn idOracle (resolveTurn idOracle gC7) = resolveTurn idOracle gC7 := by
  refine ⟨by decide, ?_⟩
  exact resolveTurn_of_not_selecting (by decide) idOracle

/-- C7: installing `S07` during the resolution of turn `T` appends a pending
entry with `explosionTurn = T + 2` and mutates neither the board nor the
other pending entries; `checkTimeBombs` keeps exactly the entries with
`currentTurn < explosionTurn` (so nothing detonates while `currentTurn <
T + 2` and a detonated entry is removed), leaves everything unchanged when
every pending entry is still early, and detonates the due entries (in order)
on the current board.  (If the game ends first, no detonation ever happens:
see the counterexample.) -/
theorem C7_bomb_timing (o : Oracle) (g : GState) (p : Pos) (pid : PlayerId)
    (ocd : Option CardM) (osel : Option Selection) :
    ((applySpecialCard o g S07M p pid ocd osel).board = g.board ∧
      (applySpecialCard o g S07M p pid ocd osel).timeBombs =
        g.timeBombs ++ [⟨p, pid, g.currentTurn, g.currentTurn + 2⟩]) ∧
    ((∀ e ∈ g.timeBombs, g.currentTurn < e.explosionTurn) → checkTimeBombs g = g) ∧
    (checkTimeBombs g).timeBombs =
      g.timeBombs.filter (fun e => decide (g.currentTurn < e.explosionTurn)) ∧
    (checkTimeBombs g).board =
      (g.timeBombs.filter (fun e => decide (e.explosionTurn ≤ g.currentTurn))).foldl
        (fun b e => bombExplode b e.position e.playerId) g.board := by
  refine ⟨⟨rfl, rfl⟩, ?_, ?_, ?_⟩
  · intro hall
    unfold checkTimeBombs
    split
    · rfl
    · have h1 : g.timeBombs.filter (fun e => decide (g.currentTurn < e.explosionTurn)) =
          g.timeBombs := by
        apply List.filter_eq_self.2
        intro e he
        exact decide_eq_true (hall e he)
      have h2 : g.timeBombs.filter (fun e => decide (e.explosionTurn ≤ g.currentTurn)) =
          [] := by
        apply List.filter_eq_nil_iff.2
        intro e he
        simp only [decide_eq_true_eq]
        exact not_le.2 (hall e he)
      rw [h1, h2]
      rfl
  · unfold checkTimeBombs
    split
    · rename_i hemp
      rw [List.isEmpty_iff] at hemp
      rw [hemp]
      rfl
    · rfl
  · unfold checkTimeBombs
    split
    · rename_i hemp
      rw [List.isEmpty_iff] at hemp
      rw [hemp]
      rfl
    · rfl

/-- Witness for C7 in the `gC7` scenario at the point of installation:
registration on turn 1 targets turn 3 and does not touch the board, and
`checkTimeBombs` of the state as of the pending entry of turn 3 at current
turn 1 keeps the entry and changes nothing. -/
theorem C7_bomb_timing_witness :
    (applySpecialCard idOracle gC7 S07M ⟨2, 2⟩ .A (some C01M)
        (some ⟨.C 1, ⟨0, 0⟩⟩)).board = gC7.board ∧
    (applySpecialCard idOracle gC7 S07M ⟨2, 2⟩ .A (some C01M)
        (some ⟨.C 1, ⟨0, 0⟩⟩)).timeBombs = [⟨⟨2, 2⟩, .A, 1, 3⟩] ∧
    checkTimeBombs { gC7 with timeBombs := [⟨⟨2, 2⟩, .A, 1, 3⟩] } =
      { gC7 with timeBombs := [⟨⟨2, 2⟩, .A, 1, 3⟩] } := by
  have h := C7_bomb_timing idOracle gC7 ⟨2, 2⟩ .A (some C01M) (some ⟨.C 1, ⟨0, 0⟩⟩)
  have h2 := C7_bomb_timing idOracle { gC7 with timeBombs := [⟨⟨2, 2⟩, .A, 1, 3⟩] }
    ⟨2, 2⟩ .A (some C01M) (some ⟨.C 1, ⟨0, 0⟩⟩)
  exact ⟨h.1.1, h.1.2, h2.2.1 (by decide)⟩

/-!
## Arbitrary engine-operation sequences (claim C2)
-/

/-- One observable engine operation: a raw card-effect application, a penalty
application, the time-bomb sweep, a selection, or a full turn resolution. -/
inductive EngineOp where
  | effect (c : CardM) (p : Pos) (pid : PlayerId)
  | penalty (o : Oracle) (pid : PlayerId) (count : Nat)
  | bombs
  | select (pid : PlayerId) (s : Selection)
  | resolve (o : Oracle)

/-- Run one engine operation on the state. -/
def applyOp (g : GState) : EngineOp → GState
  | .effect c p pid => { g with board := c.applyEffect g.board p pid (getCardOptions g c pid) }
  | .penalty o pid count => applyPenalty o g pid count
  | .bombs => checkTimeBombs g
  | .select pid s => (selectCard g pid s).2
  | .resolve o => resolveTurn o g

/-- Run a sequence of engine operations. -/
def runOps (g : GState) : List EngineOp → GState
  | [] => g
  | op :: ops => runOps (applyOp g op) ops

/-- The raw-effect operation applies an invariant-preserving card; every
other operation is unconstrained. -/
def OpGood : EngineOp → Prop
  | .effect c _ _ => GoodCard c
  | _ => True

theorem stepOK_selectCard (g : GState) (pid : PlayerId) (s : Selection) :
    StepOK g (selectCard g pid s).2 := by
  unfold selectCard
  split
  · exact StepOK.refl g
  · split
    · exact StepOK.refl g
    · split
      · exact StepOK.refl g
      · split
        · exact StepOK.refl g
        · split
          · exact StepOK.refl g
          · split
            · split
              · exact stepOK_setSel g pid (some s)
              · exact StepOK.refl g
            · exact stepOK_setSel g pid (some s)

theorem stepOK_applyOp {g : GState} {op : EngineOp} (hh : GoodHands g)
    (hop : OpGood op) : StepOK g (applyOp g op) := by
  cases op with
  | effect c p pid => exact ⟨fun hb => hop _ _ _ _ hb, rfl, rfl⟩
  | penalty o pid count => exact stepOK_applyPenalty o g pid count
  | bombs => exact stepOK_checkTimeBombs g
  | select pid s => exact stepOK_selectCard g pid s
  | resolve o => exact resolveTurn_stepOK hh o

theorem stepOK_runOps {g : GState} (hh : GoodHands g) (ops : List EngineOp)
    (hops : ∀ op ∈ ops, OpGood op) : StepOK g (runOps g ops) := by
  induction ops generalizing g with
  | nil => exact StepOK.refl g
  | cons op rest ih =>
      have h1 : StepOK g (applyOp g op) :=
        stepOK_applyOp hh (hops op (List.mem_cons_self op rest))
      exact h1.trans (ih (goodHands_of_stepOK hh h1)
        (fun q hq => hops q (List.mem_cons_of_mem op hq)))

/-- C2: from a state whose board satisfies the range invariant and whose
hands hold only invariant-preserving cards, any sequence of card-effect
applications, penalty applications, time-bomb sweeps, selections and turn
resolutions leaves every stability value on the board inside `[-5, 5]`. -/
theorem C2_stability_in_range (g : GState) (ops : List EngineOp)
    (hh : GoodHands g) (hops : ∀ op ∈ ops, OpGood op) (hb : g.board.Inv) :
    (runOps g ops).board.Inv :=
  (stepOK_runOps hh ops hops).1 hb

/-- Witness for C2: the `gC3` state run through a raw `C01` effect, a
penalty, the bomb sweep and a full resolution stays in range. -/
theorem C2_stability_in_range_witness :
    (runOps gC3 [.effect C01M ⟨2, 2⟩ .B, .penalty idOracle .A 3, .bombs,
      .select .B ⟨.C 1, ⟨3, 3⟩⟩, .resolve idOracle]).board.Inv := by
  apply C2_stability_in_range
  · constructor
    · intro c hc
      rcases List.mem_cons.1 hc with h | h
      · rw [h]; exact goodCard_C06M
      · rw [List.mem_singleton.1 h]; exact goodCard_C01M
    · intro c hc
      rw [List.mem_singleton.1 hc]
      exact goodCard_C01M
  · intro op hop
    rcases List.mem_cons.1 hop with h | hop
    · rw [h]; exact goodCard_C01M
    · rcases List.mem_cons.1 hop with h | hop
      · rw [h]; trivial
      · rcases List.mem_cons.1 hop with h | hop
        · rw [h]; trivial
        · rcases List.mem_cons.1 hop with h | hop
          · rw [h]; trivial
          · rw [List.mem_singleton.1 hop]; trivial
  · decide

/-- C10: applying Overload (`S03`) at a cell owned by the acting player sets
that cell to exactly `+5` for A (`-5` for B) regardless of its previous
value, adds `-1` for A (`+1` for B) — one clipped step — to each orthogonal
in-bounds neighbor (an out-of-bounds neighbor simply has no cell), and
leaves every other cell unchanged. -/
theorem C10_overload_pointwise (b : Board) (p : Pos) (pid : PlayerId) (s : Int)
    (hc : b.getCell p.x p.y = some s) (hown : isOwnedBy s pid = true) (x y : Int) :
    (S03apply b p pid).getCell x y =
      if x = p.x ∧ y = p.y then some (famDelta 5 pid)
      else if (⟨x, y⟩ : Pos) ∈ [(⟨p.x, p.y - 1⟩ : Pos), ⟨p.x, p.y + 1⟩,
          ⟨p.x - 1, p.y⟩, ⟨p.x + 1, p.y⟩] then
        (b.getCell x y).map (fun v => clip (v + famDelta (-1) pid))
      else b.getCell x y := by
  have hstep : S03apply b p pid =
      ((((b.setStabilityAt p.x p.y (famDelta 5 pid)).addStabilityAt p.x (p.y - 1)
        (famDelta (-1) pid)).addStabilityAt p.x (p.y + 1)
        (famDelta (-1) pid)).addStabilityAt (p.x - 1) p.y
        (famDelta (-1) pid)).addStabilityAt (p.x + 1) p.y (famDelta (-1) pid) := rfl
  rw [hstep]
  by_cases hcen : x = p.x ∧ y = p.y
  · obtain ⟨hx, hy⟩ := hcen
    subst hx
    subst hy
    rw [if_pos ⟨rfl, rfl⟩]
    rw [Board.getCell_addStabilityAt_other _ _ _ _ _ _ (Or.inl (by omega)),
      Board.getCell_addStabilityAt_other _ _ _ _ _ _ (Or.inl (by omega)),
      Board.getCell_addStabilityAt_other _ _ _ _ _ _ (Or.inr (by omega)),
      Board.getCell_addStabilityAt_other _ _ _ _ _ _ (Or.inr (by omega)),
      Board.getCell_setStabilityAt_self, hc]
    cases pid
    · rfl
    · rfl
  · rw [if_neg hcen]
    have hxy : ¬(x = p.x ∧ y = p.y) := hcen
    by_cases h1 : x = p.x ∧ y = p.y - 1
    · obtain ⟨hx, hy⟩ := h1
      subst hx
      subst hy
      rw [if_pos (by simp)]
      rw [Board.getCell_addStabilityAt_other _ _ _ _ _ _ (Or.inl (by omega)),
        Board.getCell_addStabilityAt_other _ _ _ _ _ _ (Or.inl (by omega)),
        Board.getCell_addStabilityAt_other _ _ _ _ _ _ (Or.inr (by omega)),
        Board.getCell_addStabilityAt_self,
        Board.getCell_setStabilityAt_other _ _ _ _ _ _ (Or.inr (by omega))]
    · by_cases h2 : x = p.x ∧ y = p.y + 1
      · obtain ⟨hx, hy⟩ := h2
        subst hx
        subst hy
        rw [if_pos (by simp)]
        rw [Board.getCell_addStabilityAt_other _ _ _ _ _ _ (Or.inl (by omega)),
          Board.getCell_addStabilityAt_other _ _ _ _ _ _ (Or.inl (by omega)),
          Board.getCell_addStabilityAt_self,
          Board.getCell_addStabilityAt_other _ _ _ _ _ _ (Or.inr (by omega)),
          Board.getCell_setStabilityAt_other _ _ _ _ _ _ (Or.inr (by omega))]
      · by_cases h3 : x = p.x - 1 ∧ y = p.y
        · obtain ⟨hx, hy⟩ := h3
          subst hx
          subst hy
          rw [if_pos (by simp)]
          rw [Board.getCell_addStabilityAt_other _ _ _ _ _ _ (Or.inl (by omega)),
            Board.getCell_addStabilityAt_self,
            Board.getCell_addStabilityAt_other _ _ _ _ _ _ (Or.inr (by omega)),
            Board.getCell_addStabilityAt_other _ _ _ _ _ _ (Or.inr (by omega)),
            Board.getCell_setStabilityAt_other _ _ _ _ _ _ (Or.inl (by omega))]
        · by_cases h4 : x = p.x + 1 ∧ y = p.y
          · obtain ⟨hx, hy⟩ := h4
            subst hx
            subst hy
            rw [if_pos (by simp)]
            rw [Board.getCell_addStabilityAt_self,
              Board.getCell_addStabilityAt_other _ _ _ _ _ _ (Or.inl (by omega)),
              Board.getCell_addStabilityAt_other _ _ _ _ _ _ (Or.inl (by omega)),
              Board.getCell_addStabilityAt_other _ _ _ _ _ _ (Or.inl (by omega)),
              Board.getCell_setStabilityAt_other _ _ _ _ _ _ (Or.inl (by omega))]
          · have hmem : (⟨x, y⟩ : Pos) ∉ [(⟨p.x, p.y - 1⟩ : Pos), ⟨p.x, p.y + 1⟩,
                ⟨p.x - 1, p.y⟩, ⟨p.x + 1, p.y⟩] := by
              intro hm
              rcases List.mem_cons.1 hm with h | hm
              · exact h1 (by rw [Pos.mk.injEq] at h; exact h)
              · rcases List.mem_cons.1 hm with h | hm
                · exact h2 (by rw [Pos.mk.injEq] at h; exact h)
                · rcases List.mem_cons.1 hm with h | hm
                  · exact h3 (by rw [Pos.mk.injEq] at h; exact h)
                  · rw [List.mem_singleton] at hm
                    exact h4 (by rw [Pos.mk.injEq] at hm; exact hm)
            rw [if_neg hmem]
            have hne1 : p.x ≠ x ∨ p.y - 1 ≠ y := by
              by_contra hcon
              push_neg at hcon
              exact h1 ⟨hcon.1.symm, hcon.2.symm⟩
            have hne2 : p.x ≠ x ∨ p.y + 1 ≠ y := by
              by_contra hcon
              push_neg at hcon
              exact h2 ⟨hcon.1.symm, hcon.2.symm⟩
            have hne3 : p.x - 1 ≠ x ∨ p.y ≠ y := by
              by_contra hcon
              push_neg at hcon
              exact h3 ⟨hcon.1.symm, hcon.2.symm⟩
            have hne4 : p.x + 1 ≠ x ∨ p.y ≠ y := by
              by_contra hcon
              push_neg at hcon
              exact h4 ⟨hcon.1.symm, hcon.2.symm⟩
            have hne0 : p.x ≠ x ∨ p.y ≠ y := by
              by_contra hcon
              push_neg at hcon
              exact hxy ⟨hcon.1.symm, hcon.2.symm⟩
            rw [Board.getCell_addStabilityAt_other _ _ _ _ _ _ hne4,
              Board.getCell_addStabilityAt_other _ _ _ _ _ _ hne3,
              Board.getCell_addStabilityAt_other _ _ _ _ _ _ hne2,
              Board.getCell_addStabilityAt_other _ _ _ _ _ _ hne1,
              Board.getCell_setStabilityAt_other _ _ _ _ _ _ hne0]

/-- Witness for C10 at the center of a board with `(2,2)` at `+1` (owned by
A): the center is pinned to `+5` and the neighbor `(2,1)` takes the `-1`
step. -/
theorem C10_overload_witness :
    ((S03apply ((Board.make 5).setStabilityAt 2 2 1) ⟨2, 2⟩ .A).getCell 2 2 =
      some (famDelta 5 .A)) ∧
    ((S03apply ((Board.make 5).setStabilityAt 2 2 1) ⟨2, 2⟩ .A).getCell 2 1 =
      (((Board.make 5).setStabilityAt 2 2 1).getCell 2 1).map
        (fun v => clip (v + famDelta (-1) .A))) ∧
    ((S03apply ((Board.make 5).setStabilityAt 2 2 1) ⟨2, 2⟩ .A).getCell 0 0 =
      ((Board.make 5).setStabilityAt 2 2 1).getCell 0 0) := by
  have h2 := C10_overload_pointwise ((Board.make 5).setStabilityAt 2 2 1)
    ⟨2, 2⟩ .A 1 (by decide) (by decide) 2 2
  have h1 := C10_overload_pointwise ((Board.make 5).setStabilityAt 2 2 1)
    ⟨2, 2⟩ .A 1 (by decide) (by decide) 2 1
  have h0 := C10_overload_pointwise ((Board.make 5).setStabilityAt 2 2 1)
    ⟨2, 2⟩ .A 1 (by decide) (by decide) 0 0
  refine ⟨?_, ?_, ?_⟩
  · rw [h2]
    decide
  · rw [h1]
    decide
  · rw [h0]
    decide

/-!
## Flood-fill correctness (claim C9)
-/

/-- The cell at `p` exists and is owned by `pid` (the test of both the outer
scan and the BFS neighbor check). -/
def owns (b : Board) (pid : PlayerId) (p : Pos) : Bool :=
  match b.getCell p.x p.y with
  | some s => isOwnedBy s pid
  | none => false

/-- 4-directional adjacency of grid positions. -/
def Adj (p q : Pos) : Prop :=
  (q.x = p.x ∧ (q.y = p.y - 1 ∨ q.y = p.y + 1)) ∨
  (q.y = p.y ∧ (q.x = p.x - 1 ∨ q.x = p.x + 1))

theorem Adj.symm {p q : Pos} (h : Adj p q) : Adj q p := by
  rcases p with ⟨px, py⟩
  rcases q with ⟨qx, qy⟩
  unfold Adj at h ⊢
  simp only at h ⊢
  omega

theorem adj_iff_dir (p q : Pos) :
    Adj p q ↔ ∃ d ∈ bfsDirections, q = ⟨p.x + d.x, p.y + d.y⟩ := by
  rcases p with ⟨px, py⟩
  rcases q with ⟨qx, qy⟩
  unfold Adj bfsDirections
  simp only [List.mem_cons, List.not_mem_nil, or_false, Pos.mk.injEq]
  constructor
  · rintro (⟨hx, hy | hy⟩ | ⟨hy, hx | hx⟩)
    · exact ⟨⟨0, -1⟩, Or.inl rfl, by simp only; omega⟩
    · exact ⟨⟨0, 1⟩, Or.inr (Or.inl rfl), by simp only; omega⟩
    · exact ⟨⟨-1, 0⟩, Or.inr (Or.inr (Or.inl rfl)), by simp only; omega⟩
    · exact ⟨⟨1, 0⟩, Or.inr (Or.inr (Or.inr rfl)), by simp only; omega⟩
  · rintro ⟨d, hd | hd | hd | hd, hx, hy⟩ <;> subst hd <;> simp only at hx hy <;> omega

/-- Reachability from `s` inside the vertex list `S` along `Adj` steps. -/
def ReachIn (S : List Pos) (s x : Pos) : Prop :=
  Relation.ReflTransGen (fun a c => c ∈ S ∧ Adj a c) s x

theorem ReachIn.mono {S T : List Pos} (hsub : ∀ x ∈ S, x ∈ T) {s x : Pos}
    (h : ReachIn S s x) : ReachIn T s x :=
  Relation.ReflTransGen.mono (fun _ c hc => ⟨hsub c hc.1, hc.2⟩) h

theorem owns_bounds {b : Board} {pid : PlayerId} {p : Pos} (h : owns b pid p = true) :
    0 ≤ p.x ∧ p.x < (b.size : Int) ∧ 0 ≤ p.y ∧ p.y < (b.size : Int) := by
  unfold owns at h
  cases hg : b.getCell p.x p.y with
  | none => rw [hg] at h; cases h
  | some s =>
      have hv := Board.isValidPosition_of_getCell hg
      unfold Board.isValidPosition at hv
      simp only [Bool.and_eq_true, decide_eq_true_eq] at hv
      exact ⟨hv.1.1.1, hv.1.1.2, hv.1.2, hv.2⟩

theorem mem_scanOrder {n : Nat} {p : Pos} (h1 : 0 ≤ p.x) (h2 : p.x < (n : Int))
    (h3 : 0 ≤ p.y) (h4 : p.y < (n : Int)) : p ∈ scanOrder n := by
  rcases p with ⟨px, py⟩
  have h1a : 0 ≤ px := h1
  have h2a : px < (n : Int) := h2
  have h3a : 0 ≤ py := h3
  have h4a : py < (n : Int) := h4
  unfold scanOrder
  rw [List.mem_flatMap]
  refine ⟨py.toNat, ?_, ?_⟩
  · exact List.mem_range.2 (by omega)
  · rw [List.mem_map]
    refine ⟨px.toNat, ?_, ?_⟩
    · exact List.mem_range.2 (by omega)
    · rw [Pos.mk.injEq]
      constructor <;> omega

theorem scanOrder_length (n : Nat) : (scanOrder n).length = n * n := by
  unfold scanOrder
  rw [List.length_flatMap]
  have hrep : List.map (List.length ∘ fun (y : Nat) => (List.range n).map
      (fun (x : Nat) => (⟨(x : Int), (y : Int)⟩ : Pos))) (List.range n) =
      List.replicate n n := by
    rw [List.eq_replicate_iff]
    refine ⟨by rw [List.length_map, List.length_range], ?_⟩
    intro v hv
    rw [List.mem_map] at hv
    obtain ⟨a, ha, he⟩ := hv
    rw [← he]
    show ((List.range n).map _).length = n
    rw [List.length_map, List.length_range]
  rw [hrep, List.sum_replicate, smul_eq_mul]

/-- One step of the `bfsNeighbors` fold, named for the proofs below (the
`let nq` of the source lambda is inlined). -/
def nbStep (b : Board) (pid : PlayerId) (p : Pos) (visited : List Pos)
    (acc : List Pos) (d : Pos) : List Pos :=
  if (visited ++ acc).contains (⟨p.x + d.x, p.y + d.y⟩ : Pos) then acc
  else
    match b.getCell (p.x + d.x) (p.y + d.y) with
    | some s => if isOwnedBy s pid then acc ++ [(⟨p.x + d.x, p.y + d.y⟩ : Pos)] else acc
    | none => acc

theorem bfsNeighbors_eq_foldl (b : Board) (pid : PlayerId) (p : Pos)
    (visited : List Pos) :
    bfsNeighbors b pid p visited = bfsDirections.foldl (nbStep b pid p visited) [] := rfl

theorem nbStep_cases (b : Board) (pid : PlayerId) (p : Pos) (visited acc : List Pos)
    (d : Pos) :
    nbStep b pid p visited acc d = acc ∨
      (nbStep b pid p visited acc d = acc ++ [(⟨p.x + d.x, p.y + d.y⟩ : Pos)] ∧
        owns b pid ⟨p.x + d.x, p.y + d.y⟩ = true ∧
        (⟨p.x + d.x, p.y + d.y⟩ : Pos) ∉ visited ∧
        (⟨p.x + d.x, p.y + d.y⟩ : Pos) ∉ acc) := by
  unfold nbStep
  by_cases hc : ((visited ++ acc).contains (⟨p.x + d.x, p.y + d.y⟩ : Pos)) = true
  · rw [if_pos hc]
    exact Or.inl rfl
  · rw [if_neg hc]
    have hnm : (⟨p.x + d.x, p.y + d.y⟩ : Pos) ∉ visited ++ acc := by
      intro hm
      exact hc (List.elem_eq_true_of_mem hm)
    rw [List.mem_append] at hnm
    push_neg at hnm
    cases hg : b.getCell (p.x + d.x) (p.y + d.y) with
    | none => exact Or.inl rfl
    | some s =>
        show (if isOwnedBy s pid = true then
            acc ++ [(⟨p.x + d.x, p.y + d.y⟩ : Pos)] else acc) = acc ∨
          ((if isOwnedBy s pid = true then
            acc ++ [(⟨p.x + d.x, p.y + d.y⟩ : Pos)] else acc) =
              acc ++ [(⟨p.x + d.x, p.y + d.y⟩ : Pos)] ∧
            owns b pid ⟨p.x + d.x, p.y + d.y⟩ = true ∧
            (⟨p.x + d.x, p.y + d.y⟩ : Pos) ∉ visited ∧
            (⟨p.x + d.x, p.y + d.y⟩ : Pos) ∉ acc)
        by_cases ho : isOwnedBy s pid = true
        · rw [if_pos ho]
          refine Or.inr ⟨rfl, ?_, hnm.1, hnm.2⟩
          unfold owns
          simp only
          rw [hg]
          exact ho
        · rw [if_neg ho]
          exact Or.inl rfl

theorem mem_nbStep (b : Board) (pid : PlayerId) (p : Pos) (visited acc : List Pos)
    (d : Pos) (ho : owns b pid ⟨p.x + d.x, p.y + d.y⟩ = true)
    (hv : (⟨p.x + d.x, p.y + d.y⟩ : Pos) ∉ visited) :
    (⟨p.x + d.x, p.y + d.y⟩ : Pos) ∈ nbStep b pid p visited acc d := by
  unfold nbStep
  by_cases hc : ((visited ++ acc).contains (⟨p.x + d.x, p.y + d.y⟩ : Pos)) = true
  · rw [if_pos hc]
    have hm : (⟨p.x + d.x, p.y + d.y⟩ : Pos) ∈ visited ++ acc := by
      simpa using hc
    rcases List.mem_append.1 hm with h | h
    · exact absurd h hv
    · exact h
  · rw [if_neg hc]
    unfold owns at ho
    simp only at ho
    cases hg : b.getCell (p.x + d.x) (p.y + d.y) with
    | none => rw [hg] at ho; simp at ho
    | some s =>
        rw [hg] at ho
        show (⟨p.x + d.x, p.y + d.y⟩ : Pos) ∈
          (if isOwnedBy s pid = true then
            acc ++ [(⟨p.x + d.x, p.y + d.y⟩ : Pos)] else acc)
        rw [if_pos ho]
        exact List.mem_append_right _ (List.mem_singleton_self _)

theorem foldl_nbStep_mono (b : Board) (pid : PlayerId) (p : Pos) (visited : List Pos) :
    ∀ (ds : List Pos) (acc : List Pos), ∀ q ∈ acc,
      q ∈ ds.foldl (nbStep b pid p visited) acc := by
  intro ds
  induction ds with
  | nil => intro acc q hq; exact hq
  | cons d rest ih =>
      intro acc q hq
      rw [List.foldl_cons]
      apply ih
      rcases nbStep_cases b pid p visited acc d with h | ⟨h, _, _, _⟩
      · rw [h]; exact hq
      · rw [h]; exact List.mem_append_left _ hq

theorem foldl_nbStep_sound (b : Board) (pid : PlayerId) (p : Pos) (visited : List Pos) :
    ∀ (ds : List Pos) (acc : List Pos), ∀ q ∈ ds.foldl (nbStep b pid p visited) acc,
      q ∈ acc ∨ (owns b pid q = true ∧ q ∉ visited ∧
        ∃ d ∈ ds, q = ⟨p.x + d.x, p.y + d.y⟩) := by
  intro ds
  induction ds with
  | nil => intro acc q hq; exact Or.inl hq
  | cons d rest ih =>
      intro acc q hq
      rw [List.foldl_cons] at hq
      rcases ih _ q hq with h | ⟨h1, h2, dd, hdd, he⟩
      · rcases nbStep_cases b pid p visited acc d with hs | ⟨hs, ho, hv, ha⟩
        · rw [hs] at h
          exact Or.inl h
        · rw [hs] at h
          rcases List.mem_append.1 h with h | h
          · exact Or.inl h
          · rw [List.mem_singleton] at h
            subst h
            exact Or.inr ⟨ho, hv, d, List.mem_cons_self .., rfl⟩
      · exact Or.inr ⟨h1, h2, dd, List.mem_cons_of_mem _ hdd, he⟩

theorem foldl_nbStep_complete (b : Board) (pid : PlayerId) (p : Pos)
    (visited : List Pos) :
    ∀ (ds : List Pos) (acc : List Pos), ∀ d ∈ ds,
      owns b pid ⟨p.x + d.x, p.y + d.y⟩ = true →
      (⟨p.x + d.x, p.y + d.y⟩ : Pos) ∈ visited ∨
        (⟨p.x + d.x, p.y + d.y⟩ : Pos) ∈ ds.foldl (nbStep b pid p visited) acc := by
  intro ds
  induction ds with
  | nil => intro acc d hd; cases hd
  | cons d0 rest ih =>
      intro acc d hd ho
      rw [List.foldl_cons]
      rcases List.mem_cons.1 hd with h | h
      · subst h
        by_cases hv : (⟨p.x + d.x, p.y + d.y⟩ : Pos) ∈ visited
        · exact Or.inl hv
        · exact Or.inr (foldl_nbStep_mono b pid p visited rest _ _
            (mem_nbStep b pid p visited acc d ho hv))
      · exact ih (nbStep b pid p visited acc d0) d h ho

theorem foldl_nbStep_nodup (b : Board) (pid : PlayerId) (p : Pos) (visited : List Pos) :
    ∀ (ds : List Pos) (acc : List Pos), (visited ++ acc).Nodup →
      (visited ++ ds.foldl (nbStep b pid p visited) acc).Nodup := by
  intro ds
  induction ds with
  | nil => intro acc h; exact h
  | cons d rest ih =>
      intro acc h
      rw [List.foldl_cons]
      apply ih
      rcases nbStep_cases b pid p visited acc d with hs | ⟨hs, _, hv, ha⟩
      · rw [hs]; exact h
      · rw [hs, ← List.append_assoc]
        rw [List.nodup_append]
        refine ⟨h, List.nodup_singleton _, ?_⟩
        intro a ha1 ha2
        rw [List.mem_singleton] at ha2
        subst ha2
        rcases List.mem_append.1 ha1 with h1 | h1
        · exact hv h1
        · exact ha h1

/-- Soundness face of `bfsNeighbors`: every produced neighbor is an owned,
unvisited cell adjacent to `p`. -/
theorem bfsNeighbors_sound {b : Board} {pid : PlayerId} {p : Pos} {visited : List Pos}
    {q : Pos} (hq : q ∈ bfsNeighbors b pid p visited) :
    owns b pid q = true ∧ q ∉ visited ∧ Adj p q := by
  rw [bfsNeighbors_eq_foldl] at hq
  rcases foldl_nbStep_sound b pid p visited bfsDirections [] q hq with h | ⟨h1, h2, h3⟩
  · cases h
  · exact ⟨h1, h2, (adj_iff_dir p q).2 h3⟩

/-- Completeness face of `bfsNeighbors`: an owned cell adjacent to `p` is
either already visited or produced. -/
theorem bfsNeighbors_complete {b : Board} {pid : PlayerId} {p : Pos}
    {visited : List Pos} {q : Pos} (hadj : Adj p q) (ho : owns b pid q = true) :
    q ∈ visited ∨ q ∈ bfsNeighbors b pid p visited := by
  rw [bfsNeighbors_eq_foldl]
  rcases (adj_iff_dir p q).1 hadj with ⟨d, hd, he⟩
  subst he
  exact foldl_nbStep_complete b pid p visited bfsDirections [] d hd ho

/-- `bfsNeighbors` keeps `visited ++ produced` duplicate-free. -/
theorem bfsNeighbors_nodup {b : Board} {pid : PlayerId} {p : Pos} {visited : List Pos}
    (h : visited.Nodup) : (visited ++ bfsNeighbors b pid p visited).Nodup := by
  rw [bfsNeighbors_eq_foldl]
  apply foldl_nbStep_nodup
  rw [List.append_nil]
  exact h

/-- The full specification of one BFS run `bfsAux b pid fuel Q (V₀ ++ Δ) R`
with seed `s`: the final visited list extends `V₀` by owned cells without
duplicates and is exactly `V₀` plus the final region; the final region is
owned, adjacency-closed into the visited list, reachable from `s` inside
itself, contains everything already collected or queued, and contains no
position of `V₀ ++ Δ` beyond those. -/
def BfsOut (b : Board) (pid : PlayerId) (s : Pos) (V₀ R Q Δ : List Pos)
    (out : List Pos × List Pos) : Prop :=
  out.2.Nodup ∧
  (∃ Δf, out.2 = V₀ ++ Δf ∧ ∀ x ∈ Δf, owns b pid x = true) ∧
  (∀ x, x ∈ out.2 ↔ (x ∈ V₀ ∨ x ∈ out.1)) ∧
  (∀ r ∈ out.1, owns b pid r = true) ∧
  (∀ r ∈ out.1, ∀ q, Adj r q → owns b pid q = true → q ∈ out.2) ∧
  (∀ x ∈ out.1, ReachIn out.1 s x) ∧
  (∀ x ∈ R ++ Q, x ∈ out.1) ∧
  (∀ x ∈ out.1, x ∈ R ++ Q ∨ x ∉ V₀ ++ Δ)

theorem bfsOut_terminal (b : Board) (pid : PlayerId) (s : Pos) (V₀ R Δ : List Pos)
    (h2 : ∀ r ∈ R, owns b pid r = true)
    (h3 : ∀ x ∈ Δ, owns b pid x = true)
    (h4 : (V₀ ++ Δ).Nodup)
    (h6 : ∀ x, x ∈ V₀ ++ Δ ↔ (x ∈ V₀ ∨ x ∈ R ∨ x ∈ ([] : List Pos)))
    (h7 : ∀ r ∈ R, ∀ q, Adj r q → owns b pid q = true → q ∈ V₀ ++ Δ)
    (h8 : ∀ x ∈ R ++ ([] : List Pos), ReachIn (R ++ []) s x) :
    BfsOut b pid s V₀ R [] Δ (R, V₀ ++ Δ) := by
  refine ⟨h4, ⟨Δ, rfl, h3⟩, ?_, h2, h7, ?_, ?_, ?_⟩
  · intro x
    simpa using h6 x
  · intro x hx
    have hx2 : x ∈ R ++ ([] : List Pos) := by rw [List.append_nil]; exact hx
    have := h8 x hx2
    rwa [List.append_nil] at this
  · intro x hx
    rwa [List.append_nil] at hx
  · intro x hx
    left
    rw [List.append_nil]
    exact hx

theorem bfsAux_spec (b : Board) (pid : PlayerId) (s : Pos) (V₀ : List Pos) :
    ∀ (fuel : Nat) (Q R Δ : List Pos),
      (∀ q ∈ Q, owns b pid q = true) →
      (∀ r ∈ R, owns b pid r = true) →
      (∀ x ∈ Δ, owns b pid x = true) →
      (V₀ ++ Δ).Nodup →
      (∀ q ∈ Q, q ∈ V₀ ++ Δ) →
      (∀ r ∈ R, r ∈ V₀ ++ Δ) →
      (∀ x, x ∈ V₀ ++ Δ ↔ (x ∈ V₀ ∨ x ∈ R ∨ x ∈ Q)) →
      (∀ r ∈ R, ∀ q, Adj r q → owns b pid q = true → q ∈ V₀ ++ Δ) →
      (∀ x ∈ R ++ Q, ReachIn (R ++ Q) s x) →
      Q.length + b.size * b.size ≤ fuel + Δ.length →
      BfsOut b pid s V₀ R Q Δ (bfsAux b pid fuel Q (V₀ ++ Δ) R) := by
  intro fuel
  induction fuel with
  | zero =>
      intro Q R Δ h1 h2 h3 h4 h5 h6 h7 h8 h9 h10
      have hΔsub : ∀ x ∈ Δ, x ∈ scanOrder b.size := by
        intro x hx
        have hb := owns_bounds (h3 x hx)
        exact mem_scanOrder hb.1 hb.2.1 hb.2.2.1 hb.2.2.2
      have hΔlen : Δ.length ≤ b.size * b.size := by
        have := (List.Nodup.subperm h4.of_append_right hΔsub).length_le
        rwa [scanOrder_length] at this
      have hQ : Q = [] := List.length_eq_zero.1 (by omega)
      subst hQ
      exact bfsOut_terminal b pid s V₀ R Δ h2 h3 h4 h7 h8 h9
  | succ n ih =>
      intro Q R Δ h1 h2 h3 h4 h5 h6 h7 h8 h9 h10
      cases Q with
      | nil => exact bfsOut_terminal b pid s V₀ R Δ h2 h3 h4 h7 h8 h9
      | cons p rest =>
          show BfsOut b pid s V₀ R (p :: rest) Δ
            (bfsAux b pid n (rest ++ bfsNeighbors b pid p (V₀ ++ Δ))
              ((V₀ ++ Δ) ++ bfsNeighbors b pid p (V₀ ++ Δ)) (R ++ [p]))
          rw [List.append_assoc]
          have hsound : ∀ q ∈ bfsNeighbors b pid p (V₀ ++ Δ),
              owns b pid q = true ∧ q ∉ V₀ ++ Δ ∧ Adj p q :=
            fun q hq => bfsNeighbors_sound hq
          have hp : p ∈ (p :: rest) := List.mem_cons_self ..
          have hhh := ih (rest ++ bfsNeighbors b pid p (V₀ ++ Δ)) (R ++ [p])
            (Δ ++ bfsNeighbors b pid p (V₀ ++ Δ)) ?hq1 ?hq2 ?hq3 ?hq4 ?hq5 ?hq6
            ?hq7 ?hq8 ?hq9 ?hq10
          case hq1 =>
            intro q hq
            rcases List.mem_append.1 hq with h | h
            · exact h1 q (List.mem_cons_of_mem _ h)
            · exact (hsound q h).1
          case hq2 =>
            intro r hr
            rcases List.mem_append.1 hr with h | h
            · exact h2 r h
            · rw [List.mem_singleton] at h
              subst h
              exact h1 r hp
          case hq3 =>
            intro x hx
            rcases List.mem_append.1 hx with h | h
            · exact h3 x h
            · exact (hsound x h).1
          case hq4 =>
            rw [← List.append_assoc]
            exact bfsNeighbors_nodup h4
          case hq5 =>
            intro q hq
            rw [← List.append_assoc]
            rcases List.mem_append.1 hq with h | h
            · exact List.mem_append_left _ (h5 q (List.mem_cons_of_mem _ h))
            · exact List.mem_append_right _ h
          case hq6 =>
            intro r hr
            rw [← List.append_assoc]
            rcases List.mem_append.1 hr with h | h
            · exact List.mem_append_left _ (h6 r h)
            · rw [List.mem_singleton] at h
              subst h
              exact List.mem_append_left _ (h5 r hp)
          case hq7 =>
            intro x
            have hx := h7 x
            rw [← List.append_assoc]
            simp only [List.mem_append, List.mem_cons] at hx ⊢
            tauto
          case hq8 =>
            intro r hr q hadj hq
            rw [← List.append_assoc]
            rcases List.mem_append.1 hr with h | h
            · exact List.mem_append_left _ (h8 r h q hadj hq)
            · rw [List.mem_singleton] at h
              subst h
              rcases bfsNeighbors_complete hadj hq with h | h
              · exact List.mem_append_left _ h
              · exact List.mem_append_right _ h
          case hq9 =>
            have hsub : ∀ z ∈ R ++ p :: rest, z ∈ (R ++ [p]) ++
                (rest ++ bfsNeighbors b pid p (V₀ ++ Δ)) := by
              intro z hz
              simp only [List.mem_append, List.mem_cons, List.mem_singleton] at hz ⊢
              tauto
            intro x hx
            rcases List.mem_append.1 hx with h | h
            · rcases List.mem_append.1 h with h | h
              · exact (h9 x (List.mem_append_left _ h)).mono hsub
              · rw [List.mem_singleton] at h
                subst h
                exact (h9 x (List.mem_append_right _ hp)).mono hsub
            · rcases List.mem_append.1 h with h | h
              · exact (h9 x (List.mem_append_right _ (List.mem_cons_of_mem _ h))).mono hsub
              · have hreach : ReachIn ((R ++ [p]) ++
                    (rest ++ bfsNeighbors b pid p (V₀ ++ Δ))) s p :=
                  (h9 p (List.mem_append_right _ hp)).mono hsub
                refine hreach.tail ⟨?_, (hsound x h).2.2⟩
                exact List.mem_append_right _ (List.mem_append_right _ h)
          case hq10 =>
            simp only [List.length_append, List.length_cons] at h10 ⊢
            omega
          refine ⟨hhh.1, hhh.2.1, hhh.2.2.1, hhh.2.2.2.1, hhh.2.2.2.2.1,
            hhh.2.2.2.2.2.1, ?_, ?_⟩
          · intro x hx
            apply hhh.2.2.2.2.2.2.1
            simp only [List.mem_append, List.mem_cons, List.mem_singleton] at hx ⊢
            tauto
          · intro x hx
            rcases hhh.2.2.2.2.2.2.2 x hx with h | h
            · rcases List.mem_append.1 h with h | h
              · rcases List.mem_append.1 h with h | h
                · exact Or.inl (List.mem_append_left _ h)
                · rw [List.mem_singleton] at h
                  subst h
                  exact Or.inl (List.mem_append_right _ hp)
              · rcases List.mem_append.1 h with h | h
                · exact Or.inl (List.mem_append_right _ (List.mem_cons_of_mem _ h))
                · exact Or.inr (hsound x h).2.1
            · right
              intro hmem
              apply h
              rw [← List.append_assoc]
              exact List.mem_append_left _ hmem

theorem regionStep_none {b : Board} {pid : PlayerId} {acc : List Pos × List RegionM}
    {p : Pos} (hg : b.getCell p.x p.y = none) : regionStep b pid acc p = acc := by
  unfold regionStep
  rw [hg]

theorem regionStep_skip {b : Board} {pid : PlayerId} {acc : List Pos × List RegionM}
    {p : Pos} {s : Int} (hg : b.getCell p.x p.y = some s)
    (hcond : (isOwnedBy s pid && !(acc.1.contains p)) = false) :
    regionStep b pid acc p = acc := by
  unfold regionStep
  rw [hg]
  show (if (isOwnedBy s pid && !(acc.1.contains p)) = true then _ else acc) = acc
  rw [hcond]
  simp

theorem regionStep_go {b : Board} {pid : PlayerId} {acc : List Pos × List RegionM}
    {p : Pos} {s : Int} (hg : b.getCell p.x p.y = some s)
    (hcond : (isOwnedBy s pid && !(acc.1.contains p)) = true) :
    regionStep b pid acc p =
      ((bfsAux b pid (b.size * b.size + 1) [p] (acc.1 ++ [p]) []).2,
       if (bfsAux b pid (b.size * b.size + 1) [p] (acc.1 ++ [p]) []).1.length > 0
       then acc.2 ++ [⟨(bfsAux b pid (b.size * b.size + 1) [p] (acc.1 ++ [p]) []).1, pid⟩]
       else acc.2) := by
  unfold regionStep
  rw [hg]
  show (if (isOwnedBy s pid && !(acc.1.contains p)) = true then _ else acc) = _
  rw [hcond]
  simp

/-- The outer-loop invariant of `getConnectedRegions`: the visited list is
duplicate-free and is exactly the union of the regions found so far, and each
of those regions is owned, adjacency-closed in itself, connected from a seed,
and disjoint from every other. -/
def OuterInv (b : Board) (pid : PlayerId) (acc : List Pos × List RegionM) : Prop :=
  acc.1.Nodup ∧
  (∀ x, x ∈ acc.1 ↔ ∃ R ∈ acc.2, x ∈ R.positions) ∧
  (∀ R ∈ acc.2, ∀ r ∈ R.positions, owns b pid r = true) ∧
  (∀ R ∈ acc.2, ∀ r ∈ R.positions, ∀ q, Adj r q → owns b pid q = true →
    q ∈ R.positions) ∧
  (∀ R ∈ acc.2, ∃ sd ∈ R.positions, ∀ x ∈ R.positions, ReachIn R.positions sd x) ∧
  acc.2.Pairwise (fun R1 R2 => ∀ x, x ∈ R1.positions → x ∉ R2.positions)

theorem regionStep_spec {b : Board} {pid : PlayerId} {acc : List Pos × List RegionM}
    (hOI : OuterInv b pid acc) (p : Pos) :
    OuterInv b pid (regionStep b pid acc p) ∧
    (∀ x ∈ acc.1, x ∈ (regionStep b pid acc p).1) ∧
    (owns b pid p = true → p ∈ (regionStep b pid acc p).1) := by
  cases hg : b.getCell p.x p.y with
  | none =>
      rw [regionStep_none hg]
      refine ⟨hOI, fun x hx => hx, ?_⟩
      intro ho
      unfold owns at ho
      rw [hg] at ho
      simp at ho
  | some s =>
      by_cases hcond : (isOwnedBy s pid && !(acc.1.contains p)) = true
      · have hcond2 : isOwnedBy s pid = true ∧ (!acc.1.contains p) = true := by
          rw [← Bool.and_eq_true]
          exact hcond
        have hown : owns b pid p = true := by
          unfold owns
          rw [hg]
          exact hcond2.1
        have hnot : p ∉ acc.1 := by simpa using hcond2.2
        rw [regionStep_go hg hcond]
        have hrun := bfsAux_spec b pid p (acc.1 ++ [p]) (b.size * b.size + 1)
          [p] [] [] ?hb1 ?hb2 ?hb3 ?hb4 ?hb5 ?hb6 ?hb7 ?hb8 ?hb9 ?hb10
        case hb1 =>
          intro q hq
          rw [List.mem_singleton] at hq
          subst hq
          exact hown
        case hb2 => intro r hr; cases hr
        case hb3 => intro x hx; cases hx
        case hb4 =>
          rw [List.append_nil, List.nodup_append]
          refine ⟨hOI.1, List.nodup_singleton _, ?_⟩
          intro a ha1 ha2
          rw [List.mem_singleton] at ha2
          subst ha2
          exact hnot ha1
        case hb5 =>
          intro q hq
          rw [List.mem_singleton] at hq
          subst hq
          rw [List.append_nil]
          exact List.mem_append_right _ (List.mem_singleton_self _)
        case hb6 => intro r hr; cases hr
        case hb7 =>
          intro x
          rw [List.append_nil]
          simp only [List.mem_append, List.mem_singleton, List.not_mem_nil, false_or]
          tauto
        case hb8 => intro r hr; cases hr
        case hb9 =>
          intro x hx
          rw [List.nil_append] at hx
          rw [List.mem_singleton] at hx
          subst hx
          exact Relation.ReflTransGen.refl
        case hb10 =>
          rw [List.length_singleton, List.length_nil]
          omega
        rw [List.append_nil] at hrun
        obtain ⟨hnod, ⟨Δf, hvf, hΔf⟩, hiff, howns, hclos, hreach, hall, hfresh⟩ := hrun
        have hp_in : p ∈ (bfsAux b pid (b.size * b.size + 1) [p]
            (acc.1 ++ [p]) []).1 := by
          apply hall
          rw [List.nil_append]
          exact List.mem_singleton_self _
        have hreg_fresh : ∀ x ∈ (bfsAux b pid (b.size * b.size + 1) [p]
            (acc.1 ++ [p]) []).1, x ∉ acc.1 := by
          intro x hx hmem
          rcases hfresh x hx with h | h
          · rw [List.nil_append, List.mem_singleton] at h
            subst h
            exact hnot hmem
          · rw [List.append_nil] at h
            exact h (List.mem_append_left _ hmem)
        have hlen : (bfsAux b pid (b.size * b.size + 1) [p] (acc.1 ++ [p]) []).1.length
            > 0 :=
          List.length_pos.2 (List.ne_nil_of_mem hp_in)
        rw [if_pos hlen]
        refine ⟨⟨hnod, ?_, ?_, ?_, ?_, ?_⟩, ?_, ?_⟩
        · intro x
          constructor
          · intro hx
            rcases (hiff x).1 hx with h | h
            · rcases List.mem_append.1 h with h | h
              · obtain ⟨Re, hRe, hxe⟩ := (hOI.2.1 x).1 h
                exact ⟨Re, List.mem_append_left _ hRe, hxe⟩
              · rw [List.mem_singleton] at h
                subst h
                exact ⟨⟨_, pid⟩, List.mem_append_right _ (List.mem_singleton_self _),
                  hp_in⟩
            · exact ⟨⟨_, pid⟩, List.mem_append_right _ (List.mem_singleton_self _), h⟩
          · rintro ⟨Re, hRe, hxe⟩
            rcases List.mem_append.1 hRe with h | h
            · exact (hiff x).2 (Or.inl (List.mem_append_left _
                ((hOI.2.1 x).2 ⟨Re, h, hxe⟩)))
            · rw [List.mem_singleton] at h
              subst h
              exact (hiff x).2 (Or.inr hxe)
        · intro Re hRe r hr
          rcases List.mem_append.1 hRe with h | h
          · exact hOI.2.2.1 Re h r hr
          · rw [List.mem_singleton] at h
            subst h
            exact howns r hr
        · intro Re hRe r hr q hadj hq
          rcases List.mem_append.1 hRe with h | h
          · exact hOI.2.2.2.1 Re h r hr q hadj hq
          · rw [List.mem_singleton] at h
            subst h
            rcases (hiff q).1 (hclos r hr q hadj hq) with h2 | h2
            · rcases List.mem_append.1 h2 with h2 | h2
              · obtain ⟨Re2, hRe2, hqe⟩ := (hOI.2.1 q).1 h2
                have hre : r ∈ Re2.positions :=
                  hOI.2.2.2.1 Re2 hRe2 q hqe r hadj.symm (howns r hr)
                have : r ∈ acc.1 := (hOI.2.1 r).2 ⟨Re2, hRe2, hre⟩
                exact absurd this (hreg_fresh r hr)
              · rw [List.mem_singleton] at h2
                subst h2
                exact hp_in
            · exact h2
        · intro Re hRe
          rcases List.mem_append.1 hRe with h | h
          · exact hOI.2.2.2.2.1 Re h
          · rw [List.mem_singleton] at h
            subst h
            exact ⟨p, hp_in, hreach⟩
        · rw [List.pairwise_append]
          refine ⟨hOI.2.2.2.2.2, List.pairwise_singleton .., ?_⟩
          intro Re hRe R2 hR2
          rw [List.mem_singleton] at hR2
          subst hR2
          intro x hxe hx2
          have : x ∈ acc.1 := (hOI.2.1 x).2 ⟨Re, hRe, hxe⟩
          exact hreg_fresh x hx2 this
        · intro x hx
          exact (hiff x).2 (Or.inl (List.mem_append_left _ hx))
        · intro _
          exact (hiff p).2 (Or.inl (List.mem_append_right _ (List.mem_singleton_self _)))
      · rw [Bool.not_eq_true] at hcond
        rw [regionStep_skip hg hcond]
        refine ⟨hOI, fun x hx => hx, ?_⟩
        intro ho
        have ho2 : isOwnedBy s pid = true := by
          unfold owns at ho
          rw [hg] at ho
          exact ho
        rw [ho2] at hcond
        simpa using hcond

theorem foldl_regionStep_spec (b : Board) (pid : PlayerId) :
    ∀ (ps : List Pos) (acc : List Pos × List RegionM), OuterInv b pid acc →
      OuterInv b pid (ps.foldl (regionStep b pid) acc) ∧
      (∀ x ∈ acc.1, x ∈ (ps.foldl (regionStep b pid) acc).1) ∧
      (∀ p ∈ ps, owns b pid p = true → p ∈ (ps.foldl (regionStep b pid) acc).1) := by
  intro ps
  induction ps with
  | nil =>
      intro acc h
      exact ⟨h, fun x hx => hx, fun p hp => (by cases hp)⟩
  | cons p rest ih =>
      intro acc hOI
      have hstep := regionStep_spec hOI p
      have hrest := ih (regionStep b pid acc p) hstep.1
      rw [List.foldl_cons]
      refine ⟨hrest.1, ?_, ?_⟩
      · intro x hx
        exact hrest.2.1 x (hstep.2.1 x hx)
      · intro q hq ho
        rcases List.mem_cons.1 hq with h | h
        · subst h
          exact hrest.2.1 q (hstep.2.2 ho)
        · exact hrest.2.2 q h ho

/-- C9: for every board and owner, `getConnectedRegions` partitions the
owned cells: the returned regions are pairwise disjoint, their union is
exactly the set of cells currently owned by that player, and each region is
a maximal 4-directionally connected set of same-owner cells — it is closed
under owned adjacency (maximality) and connected from a seed inside itself. -/
theorem C9_regions_partition (b : Board) (pid : PlayerId) :
    (getConnectedRegions b pid).Pairwise
      (fun R1 R2 => ∀ x, x ∈ R1.positions → x ∉ R2.positions) ∧
    (∀ p : Pos, (∃ R ∈ getConnectedRegions b pid, p ∈ R.positions) ↔
      owns b pid p = true) ∧
    (∀ R ∈ getConnectedRegions b pid, ∀ r ∈ R.positions, ∀ q, Adj r q →
      owns b pid q = true → q ∈ R.positions) ∧
    (∀ R ∈ getConnectedRegions b pid, ∃ sd ∈ R.positions,
      ∀ x ∈ R.positions, ReachIn R.positions sd x) := by
  have hempty : OuterInv b pid ([], []) := by
    refine ⟨List.nodup_nil, ?_, ?_, ?_, ?_, List.Pairwise.nil⟩
    · intro x
      simp
    · intro R hR
      cases hR
    · intro R hR
      cases hR
    · intro R hR
      cases hR
  have h := foldl_regionStep_spec b pid (scanOrder b.size) ([], []) hempty
  have hGR : getConnectedRegions b pid =
      ((scanOrder b.size).foldl (regionStep b pid) ([], [])).2 := rfl
  obtain ⟨⟨hnod, hiff, howns, hclos, hconn, hpair⟩, hmono, hscan⟩ := h
  rw [hGR]
  refine ⟨hpair, ?_, hclos, hconn⟩
  intro p
  constructor
  · rintro ⟨R, hR, hx⟩
    exact howns R hR p hx
  · intro ho
    have hb := owns_bounds ho
    have hmem := hscan p (mem_scanOrder hb.1 hb.2.1 hb.2.2.1 hb.2.2.2) ho
    exact (hiff p).1 hmem

end ForCard
